import Mathlib

/-!
Shallow embedding of the vigo editor core (buffer, actions, history, cursor,
view, cut buffers) and proofs about it.

Bytes are modelled as `Nat`, line contents as `List Nat` (a Go `[]byte`),
and the doubly-linked line list of a buffer as a `List (List Nat)`:
following `Next` pointers from `FirstLine` enumerates the list front to
back, `LastLine` is the final element, and `Prev` pointers are the reverse
chain.  A pointer into the chain is represented as a zipper
(lines before, current line, lines after) or as a 0-based index.
Go `int` counters that the code decrements are modelled as `Int`.
-/

namespace Vigo

/-- Model of utils.InsertBytes: insert `data` into `s` at byte `offset`.
For `offset ≤ s.length` the Go copy dance is exactly this splice
(for larger offsets the Go code panics on a slice bound). -/
def insertBytes (s : List Nat) (offset : Nat) (data : List Nat) : List Nat :=
  s.take offset ++ data ++ s.drop offset

/-- The scan behind `utils.IterLines`, carrying the newline-free chunk
accumulated since the last newline: each `'\n'` flushes the pending chunk
(when nonempty) followed by a singleton `'\n'` chunk, and the end of the
data flushes the pending chunk. -/
def iterLinesAux (acc : List Nat) : List Nat → List (List Nat)
  | [] => if acc = [] then [] else [acc]
  | b :: rest =>
    if b = 10 then
      if acc = [] then [10] :: iterLinesAux [] rest
      else acc :: [10] :: iterLinesAux [] rest
    else iterLinesAux (acc ++ [b]) rest

/-- Model of `utils.IterLines`: cut `data` into maximal chunks that
contain no newline, and singleton `'\n'` chunks, in order (the Go code
locates each newline with `bytes.IndexByte` and emits the text before it,
then the newline itself). -/
def iterLines (data : List Nat) : List (List Nat) := iterLinesAux [] data

/-- The scan behind `splitNl`, carrying the current segment. -/
def splitNlAux (acc : List Nat) : List Nat → List (List Nat)
  | [] => [acc]
  | b :: rest =>
    if b = 10 then acc :: splitNlAux [] rest else splitNlAux (acc ++ [b]) rest

/-- Split a byte string at its newlines (the segments between newlines,
in order; always nonempty).  This is a specification-side helper used to
state closed forms of the chunked folds; it also models `NewBuffer`'s
`ReadBytes('\n')` splitting. -/
def splitNl (data : List Nat) : List (List Nat) := splitNlAux [] data

/-- Append `suf` to the last element of a list of lines (helper for closed
forms: the tail of the split line is re-attached to the last inserted
segment). -/
def capSegs : List (List Nat) → List Nat → List (List Nat)
  | [], _ => []
  | [s], suf => [s ++ suf]
  | s :: s' :: ss, suf => s :: capSegs (s' :: ss) suf

/-- Prepend `pre` to the first element of a nonempty list of segments. -/
def consHead (pre : List Nat) : List (List Nat) → List (List Nat)
  | [] => [pre]
  | s :: ss => (pre ++ s) :: ss

/-- The first `n` bytes of the text that starts with the line tail `t` and
continues through the lines of `post`, with one `'\n'` byte standing
between consecutive lines and one phantom `'\n'` after the very last line
(mirroring what `Cursor.extractBytes` can produce).  Helper for closed
forms. -/
def takeFlat : Nat → List Nat → List (List Nat) → List Nat
  | n, t, [] => if n ≤ t.length then t.take n else t ++ [10]
  | n, t, p :: ps =>
    if n ≤ t.length then t.take n
    else t ++ 10 :: takeFlat (n - t.length - 1) p ps

/-- What remains of `(t, post)` after the first `n` flat bytes are removed:
the tail of the line the removal stops in, and the untouched lines after
it.  Helper for closed forms. -/
def dropFlat : Nat → List Nat → List (List Nat) → List Nat × List (List Nat)
  | n, t, [] => if n ≤ t.length then (t.drop n, []) else ([], [])
  | n, t, p :: ps =>
    if n ≤ t.length then (t.drop n, p :: ps)
    else dropFlat (n - t.length - 1) p ps

/-- Number of bytes from a position with line tail `t` to the end of the
buffer whose remaining lines are `post` (line boundaries count one byte
each, matching `Cursor.distance` / `extractBytes`). -/
def flatLen (t : List Nat) (post : List (List Nat)) : Nat :=
  t.length + (post.map (fun p => p.length + 1)).sum

/-- The textual part of a buffer: the line chain plus the `numBytes` and
`NumLines` counters maintained by the Go code. -/
structure TextState where
  lines : List (List Nat)
  numBytes : Int
  numLines : Int
  deriving Repr, DecidableEq

/-- Model of a `buffer.Cursor`: 1-based line number and byte offset.  The
Go struct additionally carries the `*Line` pointer; under the cursor
consistency invariant it always points at line `lineNum - 1` (0-based) of
the chain, so the model keeps only the number. -/
structure CursorM where
  lineNum : Nat
  boffset : Nat
  deriving Repr, DecidableEq

inductive ActionType where
  | insert
  | delete
  deriving Repr, DecidableEq

/-- Negation of an action type: Go encodes Insert as 1 and Delete as
minus 1, and `Revert` runs `do(buf, -what)`. -/
def ActionType.neg : ActionType → ActionType
  | .insert => .delete
  | .delete => .insert

/-- Model of a `buffer.Action`.  `numLines` is the length of the Go
`Lines []*Line` vector (pre-allocated fresh lines for an insert, pointers
to the lines that follow the cursor for a delete); line identity is
immaterial in this value model, so only the length is kept. -/
structure ActionM where
  what : ActionType
  data : List Nat
  cursor : CursorM
  numLines : Nat
  deriving Repr, DecidableEq

/-- State threaded through `Action.insert`: a zipper for the line the Go
code's `line` pointer is on (`revPre` holds the lines before it, nearest
first), the running byte offset, the saved `data_chunk` tail, and the
buffer counters. -/
structure InsState where
  revPre : List (List Nat)
  cur : List Nat
  post : List (List Nat)
  off : Nat
  saved : Option (List Nat)
  nb : Int
  nl : Int
  deriving Repr, DecidableEq

/-- One chunk of `Action.insert`'s IterLines callback.  A `'\n'` chunk
bumps `numBytes`, saves/truncates the tail of the current line the first
time the offset is interior, splices in a fresh empty line after the
current one (`Buffer.InsertLine`, which bumps `NumLines`) and moves onto
it; a text chunk splices the bytes in at the offset. -/
def insStep (st : InsState) (chunk : List Nat) : InsState :=
  if chunk.head? = some 10 then
    let savedNew := if st.off < st.cur.length then some (st.cur.drop st.off) else st.saved
    let curNew := if st.off < st.cur.length then st.cur.take st.off else st.cur
    { revPre := curNew :: st.revPre, cur := [], post := st.post, off := 0,
      saved := savedNew, nb := st.nb + 1, nl := st.nl + 1 }
  else
    { st with cur := insertBytes st.cur st.off chunk,
              off := st.off + chunk.length,
              nb := st.nb + chunk.length }

/-- The trailing fixup of `Action.insert`: re-attach the saved
`data_chunk` to the end of the line the insertion finished on. -/
def insFinish (st : InsState) : InsState :=
  match st.saved with
  | some t => { st with cur := st.cur ++ t, saved := none }
  | none => st

/-- Run `Action.insert`'s loop over the IterLines chunks of `data`. -/
def insRun (data : List Nat) (st : InsState) : InsState :=
  insFinish ((iterLines data).foldl insStep st)

/-- State threaded through `Action.delete` (the offset never moves). -/
structure DelState where
  revPre : List (List Nat)
  cur : List Nat
  post : List (List Nat)
  off : Nat
  nb : Int
  nl : Int
  deriving Repr, DecidableEq

/-- One chunk of `Action.delete`'s IterLines callback.  A `'\n'` chunk
appends the next line's contents to the current line and unlinks it
(`Buffer.DeleteLine`, which decrements `NumLines`); the Go code reaches
that line through the pointer stored in `Action.Lines`, which in every
state where the action is applicable aliases the successor of the current
line, i.e. the head of `post` — the case of a `nil` stored pointer (a
payload ending in the phantom newline) panics before any chunk runs and
is rejected at the pipeline level by `bufDelete`'s walk check.  A text
chunk removes `chunk.length` bytes at the (fixed) offset. -/
def delStep (st : DelState) (chunk : List Nat) : DelState :=
  if chunk.head? = some 10 then
    { st with cur := st.cur ++ st.post.headD [], post := st.post.tail,
              nb := st.nb - 1, nl := st.nl - 1 }
  else
    { st with cur := st.cur.take st.off ++ st.cur.drop (st.off + chunk.length),
              nb := st.nb - chunk.length }

/-- Run `Action.delete`'s loop over the IterLines chunks of `data`. -/
def delRun (data : List Nat) (st : DelState) : DelState :=
  (iterLines data).foldl delStep st

/-- `Action.insert` on the textual part of a buffer: split the line chain
at the cursor into a zipper, run the chunk loop, reassemble. -/
def insertCore (c : CursorM) (data : List Nat) (t : TextState) : TextState :=
  let li := c.lineNum - 1
  let st := insRun data
    { revPre := (t.lines.take li).reverse, cur := t.lines.getD li [],
      post := t.lines.drop (li + 1), off := c.boffset, saved := none,
      nb := t.numBytes, nl := t.numLines }
  { lines := st.revPre.reverse ++ st.cur :: st.post,
    numBytes := st.nb, numLines := st.nl }

/-- `Action.delete` on the textual part of a buffer. -/
def deleteCore (c : CursorM) (data : List Nat) (t : TextState) : TextState :=
  let li := c.lineNum - 1
  let st := delRun data
    { revPre := (t.lines.take li).reverse, cur := t.lines.getD li [],
      post := t.lines.drop (li + 1), off := c.boffset,
      nb := t.numBytes, nl := t.numLines }
  { lines := st.revPre.reverse ++ st.cur :: st.post,
    numBytes := st.nb, numLines := st.nl }

/-- `Action.do(buf, what)` for a given action type. -/
def doCore (a : ActionM) (what : ActionType) (t : TextState) : TextState :=
  match what with
  | .insert => insertCore a.cursor a.data t
  | .delete => deleteCore a.cursor a.data t

/-- `Action.Apply`. -/
def applyCore (a : ActionM) (t : TextState) : TextState := doCore a a.what t

/-- `Action.Revert`: `a.do(buf, -a.What)`. -/
def revertCore (a : ActionM) (t : TextState) : TextState := doCore a a.what.neg t

/-- Model of `Cursor.extractBytes`'s loop over the line `ld` under the
cursor and the following lines `rest`.  The Go loop alternates two kinds
of iterations — inside a line it copies `min n (len - offset)` bytes, and
at the end of a line it emits a `'\n'`, steps to the next line and
decrements `n` — so the model performs one line per recursive step: when
`n` runs out inside the current line a `take` finishes the job; otherwise
the line's tail and a separating `'\n'` are emitted and the walk moves
on.  When there is no next line the Go code sets `line = line.Next = nil`
after the phantom `'\n'`: `n` exhausted exactly there is fine, one byte
further dereferences nil (`none`); an offset beyond the line length hits
the `panic("unreachable")` arm (`none`). -/
def extractLoop : List Nat → List (List Nat) → Nat → Nat → Option (List Nat)
  | ld, [], offset, n =>
    if n = 0 then some []
    else if ld.length < offset then none
    else if n ≤ ld.length - offset then some ((ld.drop offset).take n)
    else if n = ld.length - offset + 1 then some (ld.drop offset ++ [10])
    else none
  | ld, p :: ps, offset, n =>
    if n = 0 then some []
    else if ld.length < offset then none
    else if n ≤ ld.length - offset then some ((ld.drop offset).take n)
    else
      match extractLoop p ps 0 (n - (ld.length - offset) - 1) with
      | none => none
      | some t => some (ld.drop offset ++ 10 :: t)

/-- `Cursor.ExtractBytes(n)` for a cursor in a line chain (`none` when the
cursor's line number is not even a line of the chain, i.e. the cursor's
line pointer would be garbage). -/
def extractBytes (lines : List (List Nat)) (c : CursorM) (n : Nat) :
    Option (List Nat) :=
  match lines.get? (c.lineNum - 1) with
  | none => none
  | some ld => extractLoop ld (lines.drop c.lineNum) c.boffset n

/-- `NewInsertAction`: the `Lines` vector is allocated with one fresh line
per newline byte of the payload. -/
def mkInsertAction (c : CursorM) (data : List Nat) : ActionM :=
  { what := .insert, data := data, cursor := c, numLines := data.count 10 }

/-- `NewDeleteAction`: extract the doomed bytes (propagating the panic as
`none`) and record one line pointer per newline of the extract. -/
def mkDeleteAction (lines : List (List Nat)) (c : CursorM) (n : Nat) :
    Option ActionM :=
  match extractBytes lines c n with
  | none => none
  | some d => some { what := .delete, data := d, cursor := c, numLines := d.count 10 }

/-- The buffer events the modelled operations can emit. -/
inductive EventType where
  | evInsert
  | evDelete
  | historyBack
  | historyStart
  | historyForward
  | historyEnd
  deriving Repr, DecidableEq

/-- Model of `ActionGroup`: the ordered actions; the `Prev`/`Next` links
are represented by the history zipper in `BufferM`. -/
structure ActionGroupM where
  actions : List ActionM
  deriving Repr, DecidableEq

/-- Model of a `Buffer`: the textual state plus the history chain as a
zipper.  `histPast` are the groups reachable through `Prev` (nearest
first, ending at the sentinel), `histCur` is the group `b.History` points
at, `histFut` the groups reachable through `Next` (nearest first). -/
structure BufferM where
  text : TextState
  histPast : List ActionGroupM
  histCur : ActionGroupM
  histFut : List ActionGroupM
  deriving Repr, DecidableEq

/-- `NewEmptyBuffer`: one empty line, counters 1 and 0, and `initHistory`
(current group is the sentinel, whose `Next` is one fresh empty group). -/
def mkEmptyBuffer : BufferM :=
  { text := { lines := [[]], numBytes := 0, numLines := 1 },
    histPast := [], histCur := ⟨[]⟩, histFut := [⟨[]⟩] }

/-- `Action.tryMerge`: merge `b` into the group's last action `a` when the
kinds and line numbers agree and the payloads touch.  At identical
offsets inserts merge as `b.Data ++ a.Data` (the Go comment: merge as
the new text before the existing one) and deletes as `a.Data ++ b.Data`;
at adjacent offsets the lower-offset action absorbs the higher one. -/
def tryMerge (a b : ActionM) : Option ActionM :=
  if a.what ≠ b.what then none
  else if a.cursor.lineNum ≠ b.cursor.lineNum then none
  else if a.cursor.boffset = b.cursor.boffset then
    match a.what with
    | .insert => some { what := a.what, data := b.data ++ a.data,
                        cursor := b.cursor, numLines := b.numLines + a.numLines }
    | .delete => some { what := a.what, data := a.data ++ b.data,
                        cursor := a.cursor, numLines := a.numLines + b.numLines }
  else
    let pa := if b.cursor.boffset < a.cursor.boffset then b else a
    let pb := if b.cursor.boffset < a.cursor.boffset then a else b
    if pa.cursor.boffset + pa.data.length = pb.cursor.boffset then
      some { what := pa.what, data := pa.data ++ pb.data,
             cursor := pa.cursor, numLines := pa.numLines + pb.numLines }
    else none

/-- `ActionGroup.Append`: try to merge with the last action of the group,
otherwise append. -/
def groupAppend (g : ActionGroupM) (a : ActionM) : ActionGroupM :=
  match g.actions.getLast? with
  | none => ⟨g.actions ++ [a]⟩
  | some last =>
    match tryMerge last a with
    | some m => ⟨g.actions.dropLast ++ [m]⟩
    | none => ⟨g.actions ++ [a]⟩

/-- `Buffer.maybeNextActionGroup`: if there is a `Next` group, move onto
it, clear its actions and discard everything past it. -/
def maybeNextActionGroup (b : BufferM) : BufferM :=
  match b.histFut with
  | [] => b
  | _ :: _ =>
    { b with histPast := b.histCur :: b.histPast, histCur := ⟨[]⟩, histFut := [] }

/-- `Buffer.FinalizeActionGroup`: create a fresh `Next` group when at the
tip of the history. -/
def finalizeActionGroup (b : BufferM) : BufferM :=
  match b.histFut with
  | [] => { b with histFut := [⟨[]⟩] }
  | _ :: _ => b

/-- `Buffer.Insert`: advance the history if needed, build the insert
action, apply it, and append it to the current group. -/
def bufInsert (c : CursorM) (data : List Nat) (b : BufferM) : BufferM :=
  let b := maybeNextActionGroup b
  let a := mkInsertAction c data
  { b with text := applyCore a b.text, histCur := groupAppend b.histCur a }

/-- The buffer events emitted while applying each action of a list in
order (each `Action.insert` / `Action.delete` emits one event). -/
def applyEvents (as : List ActionM) : List EventType :=
  as.map fun a => match a.what with
    | .insert => EventType.evInsert
    | .delete => EventType.evDelete

/-- The buffer events emitted while reverting a group's actions from the
last to the first. -/
def revertEvents (as : List ActionM) : List EventType :=
  as.reverse.map fun a => match a.what with
    | .insert => EventType.evDelete
    | .delete => EventType.evInsert

/-- Apply all actions of a group in order (`Buffer.Redo`'s loop). -/
def applyAll (as : List ActionM) (t : TextState) : TextState :=
  as.foldl (fun t a => applyCore a t) t

/-- Revert all actions of a group from the last to the first
(`Buffer.Undo`'s loop). -/
def revertAll (as : List ActionM) (t : TextState) : TextState :=
  as.foldr (fun a t => revertCore a t) t

/-- `Buffer.Undo`: at the sentinel (no `Prev` group) just emit
`HistoryStart`; otherwise finalize, revert the current group's actions in
reverse order and step back. -/
def bufUndo (b : BufferM) : BufferM × List EventType :=
  match b.histPast with
  | [] => (b, [EventType.historyStart])
  | g :: rest =>
    let b1 := finalizeActionGroup b
    ({ text := revertAll b1.histCur.actions b1.text,
       histPast := rest, histCur := g, histFut := b1.histCur :: b1.histFut },
     revertEvents b1.histCur.actions ++ [EventType.historyBack])

/-- `Buffer.Redo`: with no `Next` group, or a `Next` group with no
actions, just emit `HistoryEnd`; otherwise step forward and re-apply. -/
def bufRedo (b : BufferM) : BufferM × List EventType :=
  match b.histFut with
  | [] => (b, [EventType.historyEnd])
  | g :: rest =>
    if g.actions = [] then (b, [EventType.historyEnd])
    else
      ({ text := applyAll g.actions b.text,
         histPast := b.histCur :: b.histPast, histCur := g, histFut := rest },
       applyEvents g.actions ++ [EventType.historyForward])

/-- Model of `editor.validCutBuffer`'s panic condition, with Go operator
precedence made explicit: the call panics iff
`(b != '.' && b < '1') || (b > '9' && b < 'a') || b > 'z'`. -/
def validCutBufferPanics (b : Nat) : Bool :=
  (b ≠ 46 && b < 49) || (b > 57 && b < 97) || b > 122

/-- Cut buffers: a map from one-byte names to byte vectors (a missing key
reads as the empty vector, like a Go nil slice). -/
def CutBuffers : Type := Nat → List Nat

/-- `cutBuffers.set`: `none` models the fatal error on an invalid name. -/
def cbSet (b : Nat) (s : List Nat) (m : CutBuffers) : Option CutBuffers :=
  if validCutBufferPanics b then none
  else some (fun x => if x = b then s else m x)

/-- `cutBuffers.get`: `none` models the fatal error on an invalid name. -/
def cbGet (b : Nat) (m : CutBuffers) : Option (List Nat) :=
  if validCutBufferPanics b then none else some (m b)

/-- `cutBuffers.append`: `none` models the fatal error on an invalid
name. -/
def cbAppend (b : Nat) (s : List Nat) (m : CutBuffers) : Option CutBuffers :=
  if validCutBufferPanics b then none
  else some (fun x => if x = b then m b ++ s else m x)

/-- The walk inside `Cursor.distance` once the two cursors are ordered:
hop line by line from the earlier cursor, counting the tail of each line
plus one byte for the line boundary, until the later cursor's line is
reached.  `distance` only ever calls this with `ali ≤ bli`; the Go loop
follows `Next` pointers and would crash otherwise. -/
def distWalk (lines : List (List Nat)) (ali aoff bli boff : Nat) : Int :=
  if ali < bli then
    ((lines.getD ali []).length - aoff + 1 : Int) + distWalk lines (ali + 1) 0 bli boff
  else
    (boff : Int) - (aoff : Int)
termination_by bli - ali

/-- `Cursor.distance`: order the cursors (by line number, then byte
offset), remember the sign, and walk. -/
def distance (lines : List (List Nat)) (a b : CursorM) : Int :=
  if b.lineNum < a.lineNum then
    -(distWalk lines (b.lineNum - 1) b.boffset (a.lineNum - 1) a.boffset)
  else if a.lineNum = b.lineNum ∧ b.boffset < a.boffset then
    -(distWalk lines (b.lineNum - 1) b.boffset (a.lineNum - 1) a.boffset)
  else
    distWalk lines (a.lineNum - 1) a.boffset (b.lineNum - 1) b.boffset

/-- Model of Go `utf8.DecodeRune` on a byte list: returns the decoded
code point and its encoded size.  Empty input gives `(RuneError, 0)`,
invalid encodings give `(RuneError, 1)`. -/
def decodeRune (p : List Nat) : Nat × Nat :=
  match p with
  | [] => (0xFFFD, 0)
  | b0 :: rest =>
    if b0 < 0x80 then (b0, 1)
    else if b0 < 0xC2 ∨ b0 > 0xF4 then (0xFFFD, 1)
    else
      let lo := if b0 = 0xE0 then 0xA0 else if b0 = 0xF0 then 0x90 else 0x80
      let hi := if b0 = 0xED then 0x9F else if b0 = 0xF4 then 0x8F else 0xBF
      match rest with
      | [] => (0xFFFD, 1)
      | b1 :: rest1 =>
        if b1 < lo ∨ hi < b1 then (0xFFFD, 1)
        else if b0 < 0xE0 then ((b0 % 0x20) * 0x40 + b1 % 0x40, 2)
        else
          match rest1 with
          | [] => (0xFFFD, 1)
          | b2 :: rest2 =>
            if b2 < 0x80 ∨ 0xBF < b2 then (0xFFFD, 1)
            else if b0 < 0xF0 then
              ((b0 % 0x10) * 0x1000 + (b1 % 0x40) * 0x40 + b2 % 0x40, 3)
            else
              match rest2 with
              | [] => (0xFFFD, 1)
              | b3 :: _ =>
                if b3 < 0x80 ∨ 0xBF < b3 then (0xFFFD, 1)
                else ((b0 % 0x8) * 0x40000 + (b1 % 0x40) * 0x1000 +
                      (b2 % 0x40) * 0x40 + b3 % 0x40, 4)

/-- Model of Go `unicode.IsSpace`: the White_Space code points. -/
def isSpaceRune (r : Nat) : Bool :=
  (9 ≤ r && r ≤ 13) || r = 32 || r = 0x85 || r = 0xA0 || r = 0x1680 ||
  (0x2000 ≤ r && r ≤ 0x200A) || r = 0x2028 || r = 0x2029 || r = 0x202F ||
  r = 0x205F || r = 0x3000

/-- Model of `utils.IsWord` (`'_'`, letter, or number).  The model matches
the Go unicode tables on the ASCII range (and on `RuneError`), which
covers every input appearing in the theorems below; non-ASCII letters and
numbers are not tabulated. -/
def isWordRune (r : Nat) : Bool :=
  r = 95 || (48 ≤ r && r ≤ 57) || (65 ≤ r && r ≤ 90) || (97 ≤ r && r ≤ 122)

/-- The inner loop of `Cursor.nextRuneFunc`: starting at byte `off` of
`cur`, advance rune by rune while the rune fails `f` and the end of the
line has not been reached.  `fuel` dominates the number of steps; every
step consumes at least one byte, so `cur.length + 1` is always enough. -/
def nrfInner (cur : List Nat) (f : Nat → Bool) : Nat → Nat → Nat
  | 0, off => off
  | fuel + 1, off =>
    let rp := decodeRune (cur.drop off)
    if ¬ f rp.1 ∧ off ≠ cur.length then nrfInner cur f fuel (off + rp.2) else off

/-- `Cursor.nextRuneFunc` on a line chain, cursor as 1-based line number
plus byte offset.  Returns `(moved, lineNum, boffset)`; `none` only on
fuel exhaustion (unreachable from valid cursors with ample fuel). -/
def nextRuneFuncGo (lines : List (List Nat)) (f : Nat → Bool) :
    Nat → Nat → Nat → Option (Bool × Nat × Nat)
  | 0, _, _ => none
  | fuel + 1, lineNum, off =>
    let cur := lines.getD (lineNum - 1) []
    if off = cur.length then
      if lines.length ≤ lineNum then some (false, lineNum, off)
      else nextRuneFuncGo lines f fuel (lineNum + 1) 0
    else
      let off2 := nrfInner cur f (cur.length + 1) off
      if off2 = cur.length then nextRuneFuncGo lines f fuel lineNum off2
      else some (true, lineNum, off2)

/-- `Cursor.nextWord`: from a non-space rune first skip the rest of the
current word kind (word runes vs other non-space runes), then skip
whitespace to the start of the next word. -/
def nextWordGo (lines : List (List Nat)) (fuel lineNum off : Nat) :
    Option (Bool × Nat × Nat) :=
  let cur := lines.getD (lineNum - 1) []
  let r := (decodeRune (cur.drop off)).1
  let st1 :=
    if ¬ isSpaceRune r then
      if isWordRune r then
        nextRuneFuncGo lines (fun r => ¬ isWordRune r || isSpaceRune r) fuel lineNum off
      else
        nextRuneFuncGo lines (fun r => isWordRune r || isSpaceRune r) fuel lineNum off
    else some (true, lineNum, off)
  match st1 with
  | none => none
  | some (_, l1, o1) => nextRuneFuncGo lines (fun r => ¬ isSpaceRune r) fuel l1 o1

/-- Iterate `nextWordGo` `k` times, reporting where the cursor ends up. -/
def nextWordN (lines : List (List Nat)) (fuel : Nat) :
    Nat → Nat × Nat → Option (Nat × Nat)
  | 0, p => some p
  | k + 1, (lineNum, off) =>
    match nextWordGo lines fuel lineNum off with
    | none => none
    | some (_, l2, o2) => nextWordN lines fuel k (l2, o2)

/-- Model of `NewBuffer`: `bufio.ReadBytes('\n')` yields one stored line
per newline (the `'\n'` stripped) plus a final line holding whatever
follows the last newline (empty when the input ends in `'\n'`), which is
exactly a split of the input at its newlines. -/
def fromReaderLines (input : List Nat) : List (List Nat) :=
  splitNl input

/-- Model of `utils.RuneAdvanceLen` with the default tabstop of 8. -/
def runeAdvanceLen (r pos : Nat) : Nat :=
  if r = 9 then 8 - pos % 8
  else if r < 32 then 2
  else 1

/-- The loop of `Cursor.voffset`: visual width of the bytes before the
cursor.  `fuel` as in `nrfInner`. -/
def voffsetLoop : Nat → List Nat → Nat → Nat
  | 0, _, vo => vo
  | _ + 1, [], vo => vo
  | fuel + 1, d, vo =>
    let rp := decodeRune d
    voffsetLoop fuel (d.drop rp.2) (vo + runeAdvanceLen rp.1 vo)

/-- `Cursor.voffset`: visual offset of byte position `boffset` in a
line. -/
def voffsetOf (lineData : List Nat) (boffset : Nat) : Nat :=
  voffsetLoop (lineData.length + 1) (lineData.take boffset) 0

/-- `View.horizontalThreshold`: the package constant 10 clamped to
`(width - 1) / 2`. -/
def horizontalThreshold (w : Nat) : Nat :=
  if 10 > (w - 1) / 2 then (w - 1) / 2 else 10

/-- `View.adjustLineVoffset`: scroll the line horizontally so the cursor
stays inside the threshold band.  `vo` is `lineVoffset`, `cvo` is
`cursorVoffset`; Go int arithmetic, hence `Int`. -/
def adjustLineVoffset (w : Nat) (vo cvo : Int) : Int :=
  let ht : Int := horizontalThreshold w
  let threshold : Int := if vo ≠ 0 then (w : Int) - ht else (w : Int) - 1
  let vo1 := if cvo - vo ≥ threshold then cvo + (ht - w + 1) else vo
  if vo1 ≠ 0 ∧ cvo - vo1 < ht then
    if cvo - ht < 0 then 0 else cvo - ht
  else vo1

/-- `MoveCursorTo` restricted to a cursor staying on the same line with a
non-negative byte offset: recompute `cursorVoffset` and adjust
`lineVoffset`; the visible cursor column is their difference
(`View.CursorPosition`). -/
def moveCursorSameLine (w : Nat) (lineData : List Nat) (boffset : Nat)
    (vo : Int) : Int × Int :=
  let cvo : Int := voffsetOf lineData boffset
  let vo2 := adjustLineVoffset w vo cvo
  (vo2, cvo - vo2)

/-- Write a rune into a row of cells; out-of-range writes cannot occur in
`drawLine` but `List.set` ignores them. -/
def setCell (row : List Nat) (i : Int) (ch : Nat) : List Nat :=
  row.set i.toNat ch

/-- The space-filling loop of `drawLine`'s tab case: advance `x` to the
next tab stop (the first argument counts the remaining columns,
`tabstop - x`), writing spaces at visible columns, stopping early at the
right edge. -/
def tabFill (w : Nat) (vo : Int) : Nat → Nat → List Nat → Nat × List Nat
  | 0, x, row => (x, row)
  | left + 1, x, row =>
    let rx : Int := (x : Int) - vo
    if rx ≥ (w : Int) then (x, row)
    else
      let row := if rx ≥ 0 then setCell row rx 32 else row
      tabFill w vo left (x + 1) row

/-- The main loop of `View.drawLine` with no tags and no highlight ranges
(`makeCell` then yields a plain cell holding the rune).  `w` is the view
width, `vo` the cursor line's `lineVoffset`, both fixed; `x` is the
visual column, `tabstop` the next tab stop.  Control bytes render as two
cells `^X` (the second from the invisible-rune table, rune `64 + r`);
reaching the right edge with data left paints `'→'` in the last cell. -/
def drawLoop (w : Nat) (vo : Int) :
    Nat → Nat → Nat → List Nat → List Nat → List Nat
  | 0, _, _, _, row => row
  | fuel + 1, x, tabstop, data, row =>
    let rx : Int := (x : Int) - vo
    if data = [] then row
    else
      let tabstop := if x = tabstop then tabstop + 8 else tabstop
      if rx ≥ (w : Int) then setCell row ((w : Int) - 1) 8594
      else
        let rp := decodeRune data
        let r := rp.1
        let data2 := data.drop rp.2
        if r = 9 then
          let xr := tabFill w vo (tabstop - x) x row
          drawLoop w vo fuel xr.1 tabstop data2 xr.2
        else if r < 32 then
          let row := if rx ≥ 0 then setCell row rx 94 else row
          let x := x + 1
          let rx : Int := (x : Int) - vo
          if rx ≥ (w : Int) then drawLoop w vo fuel x tabstop data2 row
          else
            let row := if rx ≥ 0 then setCell row rx (64 + r) else row
            drawLoop w vo fuel (x + 1) tabstop data2 row
        else
          let row := if rx ≥ 0 then setCell row rx r else row
          drawLoop w vo fuel (x + 1) tabstop data2 row

/-- `View.drawLine` for the cursor line (no tags, no highlights): start
from a row of spaces, run the loop, and finally mark scrolled lines with
`'←'` in the first cell. -/
def drawLineRow (w : Nat) (vo : Int) (data : List Nat) : List Nat :=
  let row := drawLoop w vo (data.length + 1) 0 0 data (List.replicate w 32)
  if vo ≠ 0 then row.set 0 8592 else row

/-- The bytes of the text named in claim C7:
`func bar(i int) {`, newline, ` return 0`, newline, `}`, newline. -/
def c7ClaimedInput : List Nat :=
  [102, 117, 110, 99, 32, 98, 97, 114, 40, 105, 32, 105, 110, 116, 41, 32,
   123, 10, 32, 114, 101, 116, 117, 114, 110, 32, 48, 10, 125, 10]

/-- The bytes of the buffer the cursor test actually uses: `// comment`,
newline, `func bar(i int) {`, newline, ` return 0`, newline, `}`. -/
def c7TestInput : List Nat :=
  [47, 47, 32, 99, 111, 109, 109, 101, 110, 116, 10, 102, 117, 110, 99, 32,
   98, 97, 114, 40, 105, 32, 105, 110, 116, 41, 32, 123, 10, 32, 114, 101,
   116, 117, 114, 110, 32, 48, 10, 125]

/-- The bytes of the line `0123456789ABCDEF` from claim C8. -/
def c8Line : List Nat :=
  [48, 49, 50, 51, 52, 53, 54, 55, 56, 57, 65, 66, 67, 68, 69, 70]

/-- Reassemble an insert zipper state into a textual state (this is
exactly what `insertCore` does after running the chunks). -/
def insAssemble (st : InsState) : TextState :=
  ⟨st.revPre.reverse ++ st.cur :: st.post, st.nb, st.nl⟩

/-- Reassemble a delete zipper state into a textual state. -/
def delAssemble (st : DelState) : TextState :=
  ⟨st.revPre.reverse ++ st.cur :: st.post, st.nb, st.nl⟩

/-- Validity of applying one action to a textual state: the cursor's line
exists, its byte offset lies inside that line, and a delete does not
unlink more lines than follow the cursor line (otherwise the Go code
dereferences nil pointers). -/
def actOk (t : TextState) (a : ActionM) : Prop :=
  1 ≤ a.cursor.lineNum ∧ a.cursor.lineNum ≤ t.lines.length ∧
  a.cursor.boffset ≤ (t.lines.getD (a.cursor.lineNum - 1) []).length ∧
  (a.what = .delete → a.data.count 10 ≤ t.lines.length - a.cursor.lineNum)

/-- Validity of a whole sequence of actions, each judged in the state the
previous ones produced. -/
def actsOk : TextState → List ActionM → Prop
  | _, [] => True
  | t, a :: as => actOk t a ∧ actsOk (applyCore a t) as

/-! ### Helper lemmas -/

/-- An in-range `get?` is the `getD` value. -/
theorem get?_eq_some_getD :
    ∀ (l : List (List Nat)) (i : Nat), i < l.length →
      l.get? i = some (l.getD i []) := by
  intro l
  induction l with
  | nil => intro i h; simp at h
  | cons x xs ih =>
    intro i h
    cases i with
    | zero => rfl
    | succ j =>
      simp only [List.get?_cons_succ, List.getD_cons_succ]
      exact ih j (by simpa using h)

/-- `flatLen` across a cons of the following lines. -/
theorem flatLen_cons (t p : List Nat) (ps : List (List Nat)) :
    flatLen t (p :: ps) = t.length + (p.length + 1) + flatLen p ps - p.length := by
  simp [flatLen]
  omega

/-- Each chunk produced by `iterLinesAux` with a newline-free pending
chunk is either the singleton newline or newline-free, so the newline
chunks are counted by the newlines of the data. -/
theorem iterLinesAux_countP (data : List Nat) :
    ∀ acc : List Nat, (∀ x ∈ acc, x ≠ 10) →
      ((iterLinesAux acc data).countP (fun c => c.head? == some 10)) =
        data.count 10 := by
  induction data with
  | nil =>
    intro acc hacc
    cases acc with
    | nil => simp [iterLinesAux]
    | cons x xs =>
      have hx : x ≠ 10 := hacc x (by simp)
      simp [iterLinesAux, List.countP_cons, hx]
  | cons b rest ih =>
    intro acc hacc
    by_cases hb : b = 10
    · subst hb
      cases acc with
      | nil =>
        simp [iterLinesAux, List.countP_cons, ih [] (by simp), List.count_cons]
      | cons x xs =>
        have hx : x ≠ 10 := hacc x (by simp)
        simp [iterLinesAux, List.countP_cons, ih [] (by simp), List.count_cons, hx]
    · have hacc2 : ∀ x ∈ acc ++ [b], x ≠ 10 := by
        intro x hx
        rcases List.mem_append.mp hx with h | h
        · exact hacc x h
        · simp at h
          subst h
          exact hb
      simp [iterLinesAux, hb, ih (acc ++ [b]) hacc2, List.count_cons, hb]

/-- The number of newline chunks `IterLines` yields is the number of
newlines in the data. -/
theorem iterLines_countP (data : List Nat) :
    (iterLines data).countP (fun c => c.head? == some 10) = data.count 10 :=
  iterLinesAux_countP data [] (by simp)

/-- One insert chunk moves `NumLines` and the zipper size in lockstep. -/
theorem insStep_size (st : InsState) (c : List Nat) :
    ((insStep st c).revPre.length + 1 + (insStep st c).post.length : Int) -
      (insStep st c).nl =
    (st.revPre.length + 1 + st.post.length : Int) - st.nl := by
  unfold insStep
  by_cases h : c.head? = some 10 <;> simp [h] <;> omega

/-- The insert fold moves `NumLines` and the zipper size in lockstep. -/
theorem insFold_size :
    ∀ (cs : List (List Nat)) (st : InsState),
      ((cs.foldl insStep st).revPre.length + 1 +
        (cs.foldl insStep st).post.length : Int) - (cs.foldl insStep st).nl =
      (st.revPre.length + 1 + st.post.length : Int) - st.nl := by
  intro cs
  induction cs with
  | nil => intro st; rfl
  | cons c cs ih =>
    intro st
    rw [List.foldl_cons, ih (insStep st c), insStep_size]

/-- `insFinish` touches neither the counters nor the zipper shape. -/
theorem insFinish_size (st : InsState) :
    (insFinish st).revPre = st.revPre ∧ (insFinish st).post = st.post ∧
      (insFinish st).nl = st.nl ∧ (insFinish st).nb = st.nb := by
  unfold insFinish
  cases st.saved <;> simp

/-- The delete fold moves `NumLines` and the zipper size in lockstep, as
long as it never unlinks past the end of the chain. -/
theorem delFold_size :
    ∀ (cs : List (List Nat)) (st : DelState),
      cs.countP (fun c => c.head? == some 10) ≤ st.post.length →
      ((cs.foldl delStep st).revPre.length + 1 +
        (cs.foldl delStep st).post.length : Int) - (cs.foldl delStep st).nl =
      (st.revPre.length + 1 + st.post.length : Int) - st.nl := by
  intro cs
  induction cs with
  | nil => intro st _; rfl
  | cons c cs ih =>
    intro st hcount
    rw [List.countP_cons] at hcount
    by_cases h : c.head? = some 10
    · simp [h] at hcount
      cases hpost : st.post with
      | nil =>
        rw [hpost] at hcount
        simp at hcount
      | cons p ps =>
        have hcount2 : cs.countP (fun c => c.head? == some 10) ≤ ps.length := by
          rw [hpost] at hcount
          simp at hcount
          omega
        rw [List.foldl_cons, ih (delStep st c)
          (by simpa [delStep, h, hpost] using hcount2)]
        simp [delStep, h, hpost]
        omega
    · simp [h] at hcount
      rw [List.foldl_cons, ih (delStep st c) (by simpa [delStep, h] using hcount)]
      simp [delStep, h]

/-- Applying one valid action preserves the difference between the
`NumLines` counter and the true length of the line chain. -/
theorem applyCore_counts (a : ActionM) (t : TextState) (h : actOk t a) :
    (applyCore a t).numLines - ((applyCore a t).lines.length : Int) =
      t.numLines - (t.lines.length : Int) := by
  obtain ⟨h1, h2, h3, h4⟩ := h
  have hli : a.cursor.lineNum - 1 < t.lines.length := by omega
  have htake : (t.lines.take (a.cursor.lineNum - 1)).length = a.cursor.lineNum - 1 := by
    simp
    omega
  have hdrop : (t.lines.drop a.cursor.lineNum).length =
      t.lines.length - a.cursor.lineNum := by
    simp
  cases hw : a.what with
  | insert =>
    have hins := insFold_size (iterLines a.data)
      { revPre := (t.lines.take (a.cursor.lineNum - 1)).reverse,
        cur := t.lines.getD (a.cursor.lineNum - 1) [],
        post := t.lines.drop (a.cursor.lineNum - 1 + 1),
        off := a.cursor.boffset, saved := none,
        nb := t.numBytes, nl := t.numLines }
    have hfin := insFinish_size ((iterLines a.data).foldl insStep
      { revPre := (t.lines.take (a.cursor.lineNum - 1)).reverse,
        cur := t.lines.getD (a.cursor.lineNum - 1) [],
        post := t.lines.drop (a.cursor.lineNum - 1 + 1),
        off := a.cursor.boffset, saved := none,
        nb := t.numBytes, nl := t.numLines })
    simp only [applyCore, doCore, hw, insertCore, insRun]
    simp only [List.length_append, List.length_reverse, List.length_cons]
    rw [hfin.1, hfin.2.1, hfin.2.2.1]
    have h5 : a.cursor.lineNum - 1 + 1 = a.cursor.lineNum := by omega
    rw [h5] at hins ⊢
    simp only [List.length_reverse, htake, hdrop] at hins
    omega
  | delete =>
    have hcnt : (iterLines a.data).countP (fun c => c.head? == some 10) ≤
        (t.lines.drop a.cursor.lineNum).length := by
      rw [iterLines_countP, hdrop]
      exact h4 hw
    have hdel := delFold_size (iterLines a.data)
      { revPre := (t.lines.take (a.cursor.lineNum - 1)).reverse,
        cur := t.lines.getD (a.cursor.lineNum - 1) [],
        post := t.lines.drop (a.cursor.lineNum - 1 + 1),
        off := a.cursor.boffset,
        nb := t.numBytes, nl := t.numLines }
      (by rw [show a.cursor.lineNum - 1 + 1 = a.cursor.lineNum from by omega]; exact hcnt)
    simp only [applyCore, doCore, hw, deleteCore, delRun]
    simp only [List.length_append, List.length_reverse, List.length_cons]
    have h5 : a.cursor.lineNum - 1 + 1 = a.cursor.lineNum := by omega
    rw [h5] at hdel ⊢
    simp only [List.length_reverse, htake, hdrop] at hdel
    omega

/-- Every byte string is newline-free or splits at its first newline. -/
theorem nlfree_or_split (data : List Nat) :
    (∀ x ∈ data, x ≠ 10) ∨
      ∃ pre rest, data = pre ++ 10 :: rest ∧ ∀ x ∈ pre, x ≠ 10 := by
  induction data with
  | nil => exact Or.inl (by simp)
  | cons b bs ih =>
    by_cases hb : b = 10
    · exact Or.inr ⟨[], bs, by simp [hb], by simp⟩
    · rcases ih with h | ⟨pre, rest, heq, hpre⟩
      · refine Or.inl ?_
        intro x hx
        rcases List.mem_cons.mp hx with h1 | h1
        · subst h1; exact hb
        · exact h x h1
      · refine Or.inr ⟨b :: pre, rest, by simp [heq], ?_⟩
        intro x hx
        rcases List.mem_cons.mp hx with h1 | h1
        · subst h1; exact hb
        · exact hpre x h1

/-- `iterLinesAux` on newline-free data flushes one chunk. -/
theorem iterLinesAux_nlfree :
    ∀ (data acc : List Nat), (∀ x ∈ data, x ≠ 10) →
      iterLinesAux acc data =
        if acc ++ data = [] then [] else [acc ++ data] := by
  intro data
  induction data with
  | nil => intro acc _; simp [iterLinesAux]
  | cons b bs ih =>
    intro acc h
    have hb : b ≠ 10 := h b (by simp)
    rw [iterLinesAux, if_neg hb, ih (acc ++ [b]) (fun x hx => h x (by simp [hx]))]
    simp

/-- `iterLinesAux` across the first newline of the data. -/
theorem iterLinesAux_split :
    ∀ (pre acc rest : List Nat), (∀ x ∈ pre, x ≠ 10) →
      iterLinesAux acc (pre ++ 10 :: rest) =
        if acc ++ pre = [] then [10] :: iterLinesAux [] rest
        else (acc ++ pre) :: [10] :: iterLinesAux [] rest := by
  intro pre
  induction pre with
  | nil => intro acc rest _; simp [iterLinesAux]
  | cons p ps ih =>
    intro acc rest h
    have hp : p ≠ 10 := h p (by simp)
    rw [List.cons_append, iterLinesAux, if_neg hp,
      ih (acc ++ [p]) rest (fun x hx => h x (by simp [hx]))]
    simp

/-- `splitNlAux` on newline-free data yields one segment. -/
theorem splitNlAux_nlfree :
    ∀ (data acc : List Nat), (∀ x ∈ data, x ≠ 10) →
      splitNlAux acc data = [acc ++ data] := by
  intro data
  induction data with
  | nil => intro acc _; simp [splitNlAux]
  | cons b bs ih =>
    intro acc h
    have hb : b ≠ 10 := h b (by simp)
    rw [splitNlAux, if_neg hb, ih (acc ++ [b]) (fun x hx => h x (by simp [hx]))]
    simp

/-- `splitNlAux` across the first newline of the data. -/
theorem splitNlAux_split :
    ∀ (pre acc rest : List Nat), (∀ x ∈ pre, x ≠ 10) →
      splitNlAux acc (pre ++ 10 :: rest) = (acc ++ pre) :: splitNlAux [] rest := by
  intro pre
  induction pre with
  | nil => intro acc rest _; simp [splitNlAux]
  | cons p ps ih =>
    intro acc rest h
    have hp : p ≠ 10 := h p (by simp)
    rw [List.cons_append, splitNlAux, if_neg hp,
      ih (acc ++ [p]) rest (fun x hx => h x (by simp [hx]))]
    simp

/-- `splitNlAux` never returns the empty list. -/
theorem splitNlAux_ne_nil : ∀ (data acc : List Nat), splitNlAux acc data ≠ [] := by
  intro data
  induction data with
  | nil => intro acc; simp [splitNlAux]
  | cons b bs ih =>
    intro acc
    rw [splitNlAux]
    by_cases hb : b = 10
    · simp [hb]
    · simp [hb]
      exact ih (acc ++ [b])

/-- `splitNl` never returns the empty list. -/
theorem splitNl_ne_nil (data : List Nat) : splitNl data ≠ [] :=
  splitNlAux_ne_nil data []

/-- `consHead` with an empty prefix changes nothing on a nonempty list. -/
theorem consHead_nil_left (segs : List (List Nat)) (h : segs ≠ []) :
    consHead [] segs = segs := by
  cases segs with
  | nil => exact absurd rfl h
  | cons s t => simp [consHead]

/-- `consHead` never returns the empty list. -/
theorem consHead_ne_nil (P : List Nat) (segs : List (List Nat)) :
    consHead P segs ≠ [] := by
  cases segs <;> simp [consHead]

/-- `capSegs` on a list with at least two elements leaves the head
alone. -/
theorem capSegs_cons_of_ne (s : List Nat) (t : List (List Nat)) (suf : List Nat)
    (h : t ≠ []) : capSegs (s :: t) suf = s :: capSegs t suf := by
  cases t with
  | nil => exact absurd rfl h
  | cons s' ss => rfl

/-- `capSegs` of a nonempty list is nonempty. -/
theorem capSegs_ne_nil (segs : List (List Nat)) (suf : List Nat)
    (h : segs ≠ []) : capSegs segs suf ≠ [] := by
  cases segs with
  | nil => exact absurd rfl h
  | cons s t => cases t <;> simp [capSegs]

/-- Capping the last segment commutes with extending the first one. -/
theorem capSegs_consHead (P : List Nat) (segs : List (List Nat))
    (suf : List Nat) (h : segs ≠ []) :
    capSegs (consHead P segs) suf = consHead P (capSegs segs suf) := by
  cases segs with
  | nil => exact absurd rfl h
  | cons s t =>
    cases t with
    | nil => simp [consHead, capSegs, List.append_assoc]
    | cons s' ss => simp [consHead, capSegs]

/-- `utils.InsertBytes` at the seam of two strings. -/
theorem insertBytes_splice (P S d : List Nat) :
    insertBytes (P ++ S) P.length d = P ++ d ++ S := by
  simp [insertBytes, List.take_left, List.drop_left]

/-- A line chain splits as a zipper at any in-range index. -/
theorem zipper_split :
    ∀ (l : List (List Nat)) (i : Nat), i < l.length →
      l = l.take i ++ l.getD i [] :: l.drop (i + 1) := by
  intro l
  induction l with
  | nil => intro i h; simp at h
  | cons x xs ih =>
    intro i h
    cases i with
    | zero => simp
    | succ j =>
      simp only [List.take_succ_cons, List.getD_cons_succ, List.drop_succ_cons,
        List.cons_append]
      exact congrArg (x :: ·) (ih j (by simpa using h))

/-- A nonempty newline-free chunk does not start with a newline. -/
theorem head?_ne_nl {pre : List Nat} (h : ∀ x ∈ pre, x ≠ 10) (h0 : pre ≠ []) :
    ¬ pre.head? = some 10 := by
  cases pre with
  | nil => exact absurd rfl h0
  | cons p ps =>
    simp only [List.head?_cons, Option.some.injEq]
    exact h p (by simp)

/-- `utils.InsertBytes` at the end of a string appends. -/
theorem insertBytes_at_end (s d : List Nat) :
    insertBytes s s.length d = s ++ d := by
  simp [insertBytes]

/-- An insert step on a text chunk, on an explicit state. -/
theorem insStep_text (revPre : List (List Nat)) (cur : List Nat)
    (post : List (List Nat)) (off : Nat) (sv : Option (List Nat)) (nb nl : Int)
    (chunk : List Nat) (h : ¬ chunk.head? = some 10) :
    insStep ⟨revPre, cur, post, off, sv, nb, nl⟩ chunk =
      ⟨revPre, insertBytes cur off chunk, post, off + chunk.length, sv,
        nb + chunk.length, nl⟩ := by
  simp [insStep, h]

/-- An insert step on a newline chunk taken at the end of the current
line: the saved tail is untouched and the line is pushed whole. -/
theorem insStep_nl_eol (revPre : List (List Nat)) (cur : List Nat)
    (post : List (List Nat)) (sv : Option (List Nat)) (nb nl : Int) :
    insStep ⟨revPre, cur, post, cur.length, sv, nb, nl⟩ [10] =
      ⟨cur :: revPre, [], post, 0, sv, nb + 1, nl + 1⟩ := by
  simp [insStep]

/-- Closed form of the `Action.insert` chunk loop started at the end of
the current line (the situation after the first newline of the payload):
the segments of the remaining payload become lines, the first glued onto
the current line, and the saved tail is finally glued onto the last. -/
theorem insFold_eol :
    ∀ (N : Nat) (data : List Nat), data.length ≤ N →
    ∀ (revPre : List (List Nat)) (cur : List Nat) (post : List (List Nat))
      (sv : Option (List Nat)) (nb nl : Int),
      insAssemble (insFinish ((iterLines data).foldl insStep
          ⟨revPre, cur, post, cur.length, sv, nb, nl⟩)) =
        ⟨revPre.reverse ++
            capSegs (consHead cur (splitNl data)) (sv.getD []) ++ post,
          nb + data.length, nl + data.count 10⟩ := by
  intro N
  induction N with
  | zero =>
    intro data hd revPre cur post sv nb nl
    have hdata : data = [] := List.length_eq_zero.mp (by omega)
    subst hdata
    cases sv <;>
      simp [iterLines, iterLinesAux, insFinish, insAssemble, splitNl,
        splitNlAux, consHead, capSegs]
  | succ N ih =>
    intro data hd revPre cur post sv nb nl
    rcases nlfree_or_split data with hfree | ⟨pre, rest, heq, hpre⟩
    · by_cases hdata : data = []
      · subst hdata
        cases sv <;>
          simp [iterLines, iterLinesAux, insFinish, insAssemble, splitNl,
            splitNlAux, consHead, capSegs]
      · have hchunks : iterLines data = [data] := by
          rw [iterLines, iterLinesAux_nlfree data [] hfree]
          simp [hdata]
        have hsegs : splitNl data = [data] := by
          rw [splitNl, splitNlAux_nlfree data [] hfree]
          simp
        have hcount : data.count 10 = 0 :=
          List.count_eq_zero.mpr (fun hm => hfree 10 hm rfl)
        rw [hchunks, List.foldl_cons, List.foldl_nil,
          insStep_text _ _ _ _ _ _ _ data (head?_ne_nl hfree hdata),
          insertBytes_at_end, hsegs]
        cases sv <;>
          simp [insFinish, insAssemble, consHead, capSegs, hcount,
            List.append_assoc]
    · subst heq
      have hbound : rest.length ≤ N := by
        rw [List.length_append, List.length_cons] at hd
        omega
      have hsegs : splitNl (pre ++ 10 :: rest) = pre :: splitNl rest := by
        rw [splitNl, splitNlAux_split pre [] rest hpre]
        simp [splitNl]
      have hcountp : pre.count 10 = 0 :=
        List.count_eq_zero.mpr (fun hm => hpre 10 hm rfl)
      by_cases hpre0 : pre = []
      · subst hpre0
        have hchunks : iterLines ([] ++ 10 :: rest) =
            [10] :: iterLinesAux [] rest := by
          rw [iterLines, iterLinesAux_split [] [] rest (by simp)]
          simp
        rw [hchunks, List.foldl_cons, insStep_nl_eol,
          show (0 : Nat) = ([] : List Nat).length from rfl,
          show iterLinesAux [] rest = iterLines rest from rfl,
          ih rest hbound (cur :: revPre) [] post sv (nb + 1) (nl + 1), hsegs,
          consHead_nil_left _ (splitNl_ne_nil rest)]
        have hch : consHead cur ([] :: splitNl rest) = cur :: splitNl rest := by
          simp [consHead]
        rw [hch, capSegs_cons_of_ne _ _ _ (splitNl_ne_nil rest)]
        simp only [TextState.mk.injEq]
        refine ⟨by simp, by simp; omega,
          by simp [List.count_cons, hcountp]; omega⟩
      · have hchunks : iterLines (pre ++ 10 :: rest) =
            pre :: [10] :: iterLinesAux [] rest := by
          rw [iterLines, iterLinesAux_split pre [] rest hpre]
          simp [hpre0]
        rw [hchunks, List.foldl_cons,
          insStep_text _ _ _ _ _ _ _ pre (head?_ne_nl hpre hpre0),
          insertBytes_at_end,
          show cur.length + pre.length = (cur ++ pre).length by simp,
          List.foldl_cons, insStep_nl_eol,
          show (0 : Nat) = ([] : List Nat).length from rfl,
          show iterLinesAux [] rest = iterLines rest from rfl,
          ih rest hbound ((cur ++ pre) :: revPre) [] post sv
            (nb + pre.length + 1) (nl + 1), hsegs,
          consHead_nil_left _ (splitNl_ne_nil rest)]
        have hch : consHead cur (pre :: splitNl rest) =
            (cur ++ pre) :: splitNl rest := by
          simp [consHead]
        rw [hch, capSegs_cons_of_ne _ _ _ (splitNl_ne_nil rest)]
        simp only [TextState.mk.injEq]
        refine ⟨by simp, by simp; omega,
          by simp [List.count_append, List.count_cons, hcountp]; omega⟩

/-- The saved tail an insert newline step records when the offset splits
the current line as `P ++ S`. -/
theorem getD_if_nil (S : List Nat) :
    (if S = [] then (none : Option (List Nat)) else some S).getD [] = S := by
  by_cases h : S = [] <;> simp [h]

/-- An insert step on a newline chunk with the cursor line split as
`P ++ S` at offset `P.length` and nothing saved yet: `P` is pushed, and
`S` is saved exactly when it is nonempty. -/
theorem insStep_nl_first (revPre : List (List Nat)) (P S : List Nat)
    (post : List (List Nat)) (nb nl : Int) :
    insStep ⟨revPre, P ++ S, post, P.length, none, nb, nl⟩ [10] =
      ⟨P :: revPre, [], post, 0, if S = [] then none else some S,
        nb + 1, nl + 1⟩ := by
  by_cases h : S = []
  · subst h
    simp [insStep]
  · have hlt : P.length < (P ++ S).length := by
      simp
      exact List.length_pos.mpr h
  
    simp [insStep, hlt, List.take_left, List.drop_left, h]

/-- Closed form of a whole `Action.insert` run: with the cursor line
split as `P ++ S` at byte offset `P.length`, the payload's newline
segments become lines, the first prefixed by `P`, the last suffixed by
`S`, and `numBytes` and `NumLines` grow by the payload size and its
newline count. -/
theorem insRun_closed (data : List Nat) (revPre : List (List Nat))
    (P S : List Nat) (post : List (List Nat)) (nb nl : Int) :
    insAssemble (insRun data ⟨revPre, P ++ S, post, P.length, none, nb, nl⟩) =
      ⟨revPre.reverse ++ capSegs (consHead P (splitNl data)) S ++ post,
        nb + data.length, nl + data.count 10⟩ := by
  rcases nlfree_or_split data with hfree | ⟨pre, rest, heq, hpre⟩
  · by_cases hdata : data = []
    · subst hdata
      simp [insRun, iterLines, iterLinesAux, insFinish, insAssemble, splitNl,
        splitNlAux, consHead, capSegs]
    · have hchunks : iterLines data = [data] := by
        rw [iterLines, iterLinesAux_nlfree data [] hfree]
        simp [hdata]
      have hsegs : splitNl data = [data] := by
        rw [splitNl, splitNlAux_nlfree data [] hfree]
        simp
      have hcount : data.count 10 = 0 :=
        List.count_eq_zero.mpr (fun hm => hfree 10 hm rfl)
      rw [insRun, hchunks, List.foldl_cons, List.foldl_nil,
        insStep_text _ _ _ _ _ _ _ data (head?_ne_nl hfree hdata),
        insertBytes_splice, hsegs]
      simp [insFinish, insAssemble, consHead, capSegs, hcount,
        List.append_assoc]
  · subst heq
    have hsegs : splitNl (pre ++ 10 :: rest) = pre :: splitNl rest := by
      rw [splitNl, splitNlAux_split pre [] rest hpre]
      simp [splitNl]
    have hcountp : pre.count 10 = 0 :=
      List.count_eq_zero.mpr (fun hm => hpre 10 hm rfl)
    by_cases hpre0 : pre = []
    · subst hpre0
      have hchunks : iterLines ([] ++ 10 :: rest) =
          [10] :: iterLinesAux [] rest := by
        rw [iterLines, iterLinesAux_split [] [] rest (by simp)]
        simp
      rw [insRun, hchunks, List.foldl_cons, insStep_nl_first,
        show (0 : Nat) = ([] : List Nat).length from rfl,
        show iterLinesAux [] rest = iterLines rest from rfl,
        insFold_eol rest.length rest le_rfl (P :: revPre) [] post _
          (nb + 1) (nl + 1), getD_if_nil, hsegs,
        consHead_nil_left _ (splitNl_ne_nil rest)]
      have hch : consHead P ([] :: splitNl rest) = P :: splitNl rest := by
        simp [consHead]
      rw [hch, capSegs_cons_of_ne _ _ _ (splitNl_ne_nil rest)]
      simp only [TextState.mk.injEq]
      refine ⟨by simp, by simp; omega,
        by simp [List.count_cons, hcountp]; omega⟩
    · have hchunks : iterLines (pre ++ 10 :: rest) =
          pre :: [10] :: iterLinesAux [] rest := by
        rw [iterLines, iterLinesAux_split pre [] rest hpre]
        simp [hpre0]
      rw [insRun, hchunks, List.foldl_cons,
        insStep_text _ _ _ _ _ _ _ pre (head?_ne_nl hpre hpre0),
        insertBytes_splice,
        show P ++ pre ++ S = (P ++ pre) ++ S from by simp [List.append_assoc],
        show P.length + pre.length = (P ++ pre).length from by simp,
        List.foldl_cons, insStep_nl_first,
        show (0 : Nat) = ([] : List Nat).length from rfl,
        show iterLinesAux [] rest = iterLines rest from rfl,
        insFold_eol rest.length rest le_rfl ((P ++ pre) :: revPre) [] post _
          (nb + pre.length + 1) (nl + 1), getD_if_nil, hsegs,
        consHead_nil_left _ (splitNl_ne_nil rest)]
      have hch : consHead P (pre :: splitNl rest) =
          (P ++ pre) :: splitNl rest := by
        simp [consHead]
      rw [hch, capSegs_cons_of_ne _ _ _ (splitNl_ne_nil rest)]
      simp only [TextState.mk.injEq]
      refine ⟨by simp, by simp; omega,
        by simp [List.count_append, List.count_cons, hcountp]; omega⟩

/-- A delete step on a text chunk, on an explicit state. -/
theorem delStep_text (revPre : List (List Nat)) (cur : List Nat)
    (post : List (List Nat)) (off : Nat) (nb nl : Int) (chunk : List Nat)
    (h : ¬ chunk.head? = some 10) :
    delStep ⟨revPre, cur, post, off, nb, nl⟩ chunk =
      ⟨revPre, cur.take off ++ cur.drop (off + chunk.length), post, off,
        nb - chunk.length, nl⟩ := by
  simp [delStep, h]

/-- A delete step on a newline chunk, on an explicit state. -/
theorem delStep_nl (revPre : List (List Nat)) (cur : List Nat)
    (post : List (List Nat)) (off : Nat) (nb nl : Int) :
    delStep ⟨revPre, cur, post, off, nb, nl⟩ [10] =
      ⟨revPre, cur ++ post.headD [], post.tail, off, nb - 1, nl - 1⟩ := by
  simp [delStep]

/-- Closed form of a whole `Action.delete` run on a buffer shaped exactly
as the matching insert left it: the payload's newline segments are
removed line by line and the cursor line closes back up to `P ++ S`. -/
theorem delRun_closed :
    ∀ (N : Nat) (data : List Nat), data.length ≤ N →
    ∀ (revPre : List (List Nat)) (P S : List Nat) (post : List (List Nat))
      (nb nl : Int),
      delRun data ⟨revPre,
          (capSegs (consHead P (splitNl data)) S).headD [],
          (capSegs (consHead P (splitNl data)) S).tail ++ post,
          P.length, nb, nl⟩ =
        ⟨revPre, P ++ S, post, P.length, nb - data.length,
          nl - data.count 10⟩ := by
  intro N
  induction N with
  | zero =>
    intro data hd revPre P S post nb nl
    have hdata : data = [] := List.length_eq_zero.mp (by omega)
    subst hdata
    simp [delRun, iterLines, iterLinesAux, splitNl, splitNlAux, consHead,
      capSegs]
  | succ N ih =>
    intro data hd revPre P S post nb nl
    rcases nlfree_or_split data with hfree | ⟨pre, rest, heq, hpre⟩
    · by_cases hdata : data = []
      · subst hdata
        simp [delRun, iterLines, iterLinesAux, splitNl, splitNlAux, consHead,
          capSegs]
      · have hchunks : iterLines data = [data] := by
          rw [iterLines, iterLinesAux_nlfree data [] hfree]
          simp [hdata]
        have hsegs : splitNl data = [data] := by
          rw [splitNl, splitNlAux_nlfree data [] hfree]
          simp
        have hcount : data.count 10 = 0 :=
          List.count_eq_zero.mpr (fun hm => hfree 10 hm rfl)
        rw [delRun, hchunks, hsegs, List.foldl_cons, List.foldl_nil]
        simp only [consHead, capSegs, List.headD_cons, List.tail_cons,
          List.nil_append]
        have hdrop : List.drop (P.length + data.length) (P ++ (data ++ S)) = S := by
          rw [← List.append_assoc]
          exact List.drop_left' (by simp)
        rw [delStep_text _ _ _ _ _ _ data (head?_ne_nl hfree hdata),
          show P ++ data ++ S = P ++ (data ++ S) from by simp,
          List.take_left, hdrop, hcount]
        simp
    · subst heq
      have hbound : rest.length ≤ N := by
        rw [List.length_append, List.length_cons] at hd
        omega
      have hsegs : splitNl (pre ++ 10 :: rest) = pre :: splitNl rest := by
        rw [splitNl, splitNlAux_split pre [] rest hpre]
        simp [splitNl]
      have hcountp : pre.count 10 = 0 :=
        List.count_eq_zero.mpr (fun hm => hpre 10 hm rfl)
      obtain ⟨ch, ct, hcs⟩ : ∃ ch ct,
          capSegs (splitNl rest) S = ch :: ct := by
        rcases hcs2 : capSegs (splitNl rest) S with _ | ⟨ch, ct⟩
        · exact absurd hcs2 (capSegs_ne_nil _ _ (splitNl_ne_nil rest))
        · exact ⟨ch, ct, rfl⟩
      have hch : consHead P (pre :: splitNl rest) =
          (P ++ pre) :: splitNl rest := by
        simp [consHead]
      rw [delRun, hsegs, hch,
        capSegs_cons_of_ne _ _ _ (splitNl_ne_nil rest), hcs]
      simp only [List.headD_cons, List.tail_cons]
      have hprestep :
          (iterLines (pre ++ 10 :: rest)).foldl delStep
            ⟨revPre, P ++ pre, (ch :: ct) ++ post, P.length, nb, nl⟩ =
          (iterLinesAux [] rest).foldl delStep
            ⟨revPre, P ++ ch, ct ++ post, P.length,
              nb - pre.length - 1, nl - 1⟩ := by
        by_cases hpre0 : pre = []
        · subst hpre0
          rw [iterLines, iterLinesAux_split [] [] rest (by simp)]
          simp only [List.nil_append, reduceIte, List.foldl_cons]
          rw [delStep_nl]
          simp
        · rw [iterLines, iterLinesAux_split pre [] rest hpre]
          simp only [List.nil_append, if_neg hpre0, List.foldl_cons]
          rw [delStep_text _ _ _ _ _ _ pre (head?_ne_nl hpre hpre0),
            List.take_left,
            List.drop_eq_nil_of_le (by simp : (P ++ pre).length ≤ P.length + pre.length),
            List.append_nil, delStep_nl]
          simp
      rw [hprestep,
        show iterLinesAux [] rest = iterLines rest from rfl]
      have hihst : (⟨revPre, P ++ ch, ct ++ post, P.length,
          nb - pre.length - 1, nl - 1⟩ : DelState) =
          ⟨revPre, (capSegs (consHead P (splitNl rest)) S).headD [],
            (capSegs (consHead P (splitNl rest)) S).tail ++ post, P.length,
            nb - pre.length - 1, nl - 1⟩ := by
        rw [capSegs_consHead _ _ _ (splitNl_ne_nil rest), hcs]
        simp [consHead]
      rw [show (iterLines rest).foldl delStep
            ⟨revPre, P ++ ch, ct ++ post, P.length,
              nb - pre.length - 1, nl - 1⟩ =
          delRun rest ⟨revPre, P ++ ch, ct ++ post, P.length,
              nb - pre.length - 1, nl - 1⟩ from rfl, hihst,
        ih rest hbound revPre P S post (nb - pre.length - 1) (nl - 1)]
      simp only [DelState.mk.injEq]
      refine ⟨trivial, trivial, trivial, trivial, by simp; omega,
        by simp [List.count_append, List.count_cons, hcountp]; omega⟩

/-- `extractBytes`'s loop, in closed form: when the requested count is in
range (phantom newline included) it returns exactly the first `n` flat
bytes from the cursor. -/
theorem extractLoop_eq_takeFlat :
    ∀ (rest : List (List Nat)) (ld : List Nat) (offset n : Nat),
      offset ≤ ld.length → n ≤ flatLen (ld.drop offset) rest + 1 →
      extractLoop ld rest offset n =
        some (takeFlat n (ld.drop offset) rest) := by
  intro rest
  induction rest with
  | nil =>
    intro ld offset n hoff hn
    have hd : (ld.drop offset).length = ld.length - offset := by simp
    simp only [flatLen, List.map_nil, List.sum_nil, Nat.add_zero] at hn
    by_cases h0 : n = 0
    · simp [extractLoop, takeFlat, h0]
    · by_cases h1 : n ≤ ld.length - offset
      · simp [extractLoop, takeFlat, h0, h1, hd, Nat.not_lt.mpr hoff]
      · have h2 : n = ld.length - offset + 1 := by omega
        simp [extractLoop, takeFlat, h0, h1, h2, hd, Nat.not_lt.mpr hoff]
  | cons p ps ih =>
    intro ld offset n hoff hn
    have hd : (ld.drop offset).length = ld.length - offset := by simp
    by_cases h0 : n = 0
    · simp [extractLoop, takeFlat, h0]
    · by_cases h1 : n ≤ ld.length - offset
      · simp [extractLoop, takeFlat, h0, h1, hd, Nat.not_lt.mpr hoff]
      · have hbound : n - (ld.length - offset) - 1 ≤ flatLen p ps + 1 := by
          simp only [flatLen, List.map_cons, List.sum_cons] at hn ⊢
          omega
        have hrec := ih p 0 (n - (ld.length - offset) - 1) (by omega)
          (by simpa using hbound)
        simp only [List.drop_zero] at hrec
        simp only [extractLoop, h0, if_false, if_neg h1,
          if_neg (by omega : ¬ ld.length < offset), hrec]
        have h2 : ¬ n ≤ (ld.drop offset).length := by omega
        rw [takeFlat, if_neg h2, hd]
  
/-- A newline-free buffer decomposes at any in-range flat count: the
capped segments of the extracted bytes, the remaining tail and the
untouched lines reassemble the original cursor line and its
successors. -/
theorem flat_decomp :
    ∀ (post : List (List Nat)) (T P : List Nat) (n : Nat),
      (∀ x ∈ T, x ≠ 10) → (∀ l ∈ post, ∀ x ∈ l, x ≠ 10) →
      n ≤ flatLen T post →
      capSegs (consHead P (splitNl (takeFlat n T post)))
          (dropFlat n T post).1 ++ (dropFlat n T post).2 =
        (P ++ T) :: post := by
  intro post
  induction post with
  | nil =>
    intro T P n hT _ hn
    simp only [flatLen, List.map_nil, List.sum_nil, Nat.add_zero] at hn
    have htake : ∀ x ∈ T.take n, x ≠ 10 :=
      fun x hx => hT x (List.take_subset n T hx)
    rw [takeFlat, if_pos hn, dropFlat, if_pos hn,
      splitNl, splitNlAux_nlfree (T.take n) [] htake]
    simp [consHead, capSegs, List.append_assoc]
  | cons p ps ih =>
    intro T P n hT hpost hn
    by_cases hTn : n ≤ T.length
    · have htake : ∀ x ∈ T.take n, x ≠ 10 :=
        fun x hx => hT x (List.take_subset n T hx)
      rw [takeFlat, if_pos hTn, dropFlat, if_pos hTn,
        splitNl, splitNlAux_nlfree (T.take n) [] htake]
      simp [consHead, capSegs, List.append_assoc]
    · have hbound : n - T.length - 1 ≤ flatLen p ps := by
        simp only [flatLen, List.map_cons, List.sum_cons] at hn ⊢
        omega
      have hp : ∀ x ∈ p, x ≠ 10 := hpost p (by simp)
      have hps : ∀ l ∈ ps, ∀ x ∈ l, x ≠ 10 :=
        fun l hl => hpost l (by simp [hl])
      have hih := ih p [] (n - T.length - 1) hp hps hbound
      rw [consHead_nil_left _ (splitNl_ne_nil _), List.nil_append] at hih
      rw [takeFlat, if_neg hTn, dropFlat, if_neg hTn,
        splitNl, splitNlAux_split T [] _ hT, List.nil_append]
      have hch : consHead P (T :: splitNlAux [] (takeFlat (n - T.length - 1) p ps)) =
          (P ++ T) :: splitNl (takeFlat (n - T.length - 1) p ps) := by
        simp [consHead, splitNl]
      rw [hch, capSegs_cons_of_ne _ _ _ (splitNl_ne_nil _), List.cons_append,
        hih]

/-- `getD` at the seam of an append. -/
theorem getD_append_length (A : List (List Nat)) (x : List Nat)
    (rest : List (List Nat)) : (A ++ x :: rest).getD A.length [] = x := by
  induction A with
  | nil => rfl
  | cons a as ih => simpa [List.getD_cons_succ] using ih

/-- `drop` one past the seam of an append. -/
theorem drop_append_cons (A : List (List Nat)) (x : List Nat)
    (rest : List (List Nat)) : (A ++ x :: rest).drop (A.length + 1) = rest := by
  induction A with
  | nil => rfl
  | cons a as ih => simpa using ih

/-- An in-range `getD` is a member. -/
theorem getD_mem (l : List (List Nat)) (i : Nat) (h : i < l.length) :
    l.getD i [] ∈ l :=
  List.get?_mem (get?_eq_some_getD l i h)

/-- `insertCore` in closed form on a valid cursor. -/
theorem insertCore_closed (c : CursorM) (data : List Nat) (t : TextState)
    (h1 : 1 ≤ c.lineNum) (h2 : c.lineNum ≤ t.lines.length)
    (h3 : c.boffset ≤ (t.lines.getD (c.lineNum - 1) []).length) :
    insertCore c data t =
      ⟨t.lines.take (c.lineNum - 1) ++
          capSegs (consHead ((t.lines.getD (c.lineNum - 1) []).take c.boffset)
              (splitNl data))
            ((t.lines.getD (c.lineNum - 1) []).drop c.boffset) ++
          t.lines.drop (c.lineNum - 1 + 1),
        t.numBytes + data.length, t.numLines + data.count 10⟩ := by
  have hsplit : (t.lines.getD (c.lineNum - 1) []).take c.boffset ++
      (t.lines.getD (c.lineNum - 1) []).drop c.boffset =
      t.lines.getD (c.lineNum - 1) [] :=
    List.take_append_drop c.boffset (t.lines.getD (c.lineNum - 1) [])
  have hlen : ((t.lines.getD (c.lineNum - 1) []).take c.boffset).length =
      c.boffset := by
    simp only [List.length_take]
    omega
  have hstart : insertCore c data t =
      insAssemble (insRun data
        ⟨(t.lines.take (c.lineNum - 1)).reverse,
          (t.lines.getD (c.lineNum - 1) []).take c.boffset ++
            (t.lines.getD (c.lineNum - 1) []).drop c.boffset,
          t.lines.drop (c.lineNum - 1 + 1),
          ((t.lines.getD (c.lineNum - 1) []).take c.boffset).length,
          none, t.numBytes, t.numLines⟩) := by
    rw [hsplit, hlen]
    rfl
  rw [hstart, insRun_closed]
  simp

/-- `deleteCore` in closed form on a buffer shaped as the matching insert
left it. -/
theorem deleteCore_closed (c : CursorM) (data : List Nat)
    (A : List (List Nat)) (P S : List Nat) (B : List (List Nat)) (nb nl : Int)
    (hA : A.length = c.lineNum - 1) (hoff : c.boffset = P.length) :
    deleteCore c data
        ⟨A ++ capSegs (consHead P (splitNl data)) S ++ B, nb, nl⟩ =
      ⟨A ++ (P ++ S) :: B, nb - data.length, nl - data.count 10⟩ := by
  obtain ⟨h, tl, hls⟩ : ∃ h tl,
      capSegs (consHead P (splitNl data)) S = h :: tl := by
    rcases hcs : capSegs (consHead P (splitNl data)) S with _ | ⟨h, tl⟩
    · exact absurd hcs (capSegs_ne_nil _ _ (consHead_ne_nil _ _))
    · exact ⟨h, tl, rfl⟩
  have htake : (A ++ capSegs (consHead P (splitNl data)) S ++ B).take
      (c.lineNum - 1) = A := by
    rw [hls, List.append_assoc]
    exact List.take_left' hA
  have hget : (A ++ capSegs (consHead P (splitNl data)) S ++ B).getD
      (c.lineNum - 1) [] = h := by
    rw [hls, List.append_assoc, List.cons_append, ← hA]
    exact getD_append_length A h (tl ++ B)
  have hdrop : (A ++ capSegs (consHead P (splitNl data)) S ++ B).drop
      (c.lineNum - 1 + 1) = tl ++ B := by
    rw [hls, List.append_assoc, List.cons_append, ← hA]
    exact drop_append_cons A h (tl ++ B)
  have hstart : deleteCore c data
      ⟨A ++ capSegs (consHead P (splitNl data)) S ++ B, nb, nl⟩ =
      delAssemble (delRun data
        ⟨((A ++ capSegs (consHead P (splitNl data)) S ++ B).take
            (c.lineNum - 1)).reverse,
          (A ++ capSegs (consHead P (splitNl data)) S ++ B).getD
            (c.lineNum - 1) [],
          (A ++ capSegs (consHead P (splitNl data)) S ++ B).drop
            (c.lineNum - 1 + 1),
          c.boffset, nb, nl⟩) := rfl
  rw [hstart, htake, hget, hdrop, hoff]
  have hst : (⟨A.reverse, h, tl ++ B, P.length, nb, nl⟩ : DelState) =
      ⟨A.reverse, (capSegs (consHead P (splitNl data)) S).headD [],
        (capSegs (consHead P (splitNl data)) S).tail ++ B,
        P.length, nb, nl⟩ := by
    rw [hls]
    simp
  rw [hst, delRun_closed data.length data le_rfl]
  simp [delAssemble]

/-! ### Theorems -/

/-- The delete direction of C1, stated over the decomposed buffer: with
the cursor line split as `P ++ T` at offset `P.length` and newline-free
content, deleting the first `n` flat bytes and re-inserting them restores
the buffer exactly. -/
theorem c1_delete_dir (c : CursorM) (n : Nat) (A : List (List Nat))
    (P T : List Nat) (rest : List (List Nat)) (nb nl : Int)
    (h1 : 1 ≤ c.lineNum)
    (hA : A.length = c.lineNum - 1) (hoffP : c.boffset = P.length)
    (hTnl : ∀ x ∈ T, x ≠ 10) (hRnl : ∀ l ∈ rest, ∀ x ∈ l, x ≠ 10)
    (hn : n ≤ flatLen T rest) :
    revertCore ⟨.delete, takeFlat n T rest, c, (takeFlat n T rest).count 10⟩
        (applyCore ⟨.delete, takeFlat n T rest, c,
            (takeFlat n T rest).count 10⟩
          ⟨A ++ (P ++ T) :: rest, nb, nl⟩) =
      ⟨A ++ (P ++ T) :: rest, nb, nl⟩ := by
  have hdecomp := flat_decomp rest T P n hTnl hRnl hn
  have hlines : A ++ (P ++ T) :: rest =
      A ++ capSegs (consHead P (splitNl (takeFlat n T rest)))
        (dropFlat n T rest).1 ++ (dropFlat n T rest).2 := by
    rw [List.append_assoc, hdecomp]
  have e1 : deleteCore c (takeFlat n T rest)
      ⟨A ++ (P ++ T) :: rest, nb, nl⟩ =
      ⟨A ++ (P ++ (dropFlat n T rest).1) :: (dropFlat n T rest).2,
        nb - (takeFlat n T rest).length,
        nl - (takeFlat n T rest).count 10⟩ := by
    conv_lhs => rw [hlines]
    exact deleteCore_closed c _ A P _ _ nb nl hA hoffP
  have h2b : c.lineNum ≤ (A ++ (P ++ (dropFlat n T rest).1) ::
      (dropFlat n T rest).2).length := by
    simp only [List.length_append, List.length_cons, hA]
    omega
  have hget : (A ++ (P ++ (dropFlat n T rest).1) ::
      (dropFlat n T rest).2).getD (c.lineNum - 1) [] =
      P ++ (dropFlat n T rest).1 := by
    rw [← hA]
    exact getD_append_length _ _ _
  have h3b : c.boffset ≤ ((A ++ (P ++ (dropFlat n T rest).1) ::
      (dropFlat n T rest).2).getD (c.lineNum - 1) []).length := by
    rw [hget]
    simp only [List.length_append]
    omega
  have e2 : insertCore c (takeFlat n T rest)
      ⟨A ++ (P ++ (dropFlat n T rest).1) :: (dropFlat n T rest).2,
        nb - (takeFlat n T rest).length,
        nl - (takeFlat n T rest).count 10⟩ =
      ⟨A ++ (P ++ T) :: rest, nb, nl⟩ := by
    rw [insertCore_closed c _ _ h1 h2b h3b]
    have htake2 : (A ++ (P ++ (dropFlat n T rest).1) ::
        (dropFlat n T rest).2).take (c.lineNum - 1) = A :=
      List.take_left' hA
    have hdrop2 : (A ++ (P ++ (dropFlat n T rest).1) ::
        (dropFlat n T rest).2).drop (c.lineNum - 1 + 1) =
        (dropFlat n T rest).2 := by
      rw [← hA]
      exact drop_append_cons _ _ _
    rw [htake2, hget, hdrop2,
      show (P ++ (dropFlat n T rest).1).take c.boffset = P from by
        rw [hoffP]; exact List.take_left _ _,
      show (P ++ (dropFlat n T rest).1).drop c.boffset =
          (dropFlat n T rest).1 from by
        rw [hoffP]; exact List.drop_left _ _]
    simp only [TextState.mk.injEq]
    exact ⟨hlines.symm, by omega, by omega⟩
  show insertCore c _ (deleteCore c _ _) = _
  rw [e1, e2]

/-- C1: for a reachable buffer (newline-free lines) and a valid cursor,
applying an action and then reverting it restores the byte contents (and
the counters) exactly, and reverting then re-applying restores the
post-edit contents — for insert actions of any payload and for delete
actions whose byte count does not run past the end of the buffer. -/
theorem vigo_c1_apply_revert_inverses (t : TextState) (c : CursorM)
    (data : List Nat) (n : Nat)
    (hnl : ∀ l ∈ t.lines, ∀ x ∈ l, x ≠ 10)
    (h1 : 1 ≤ c.lineNum) (h2 : c.lineNum ≤ t.lines.length)
    (h3 : c.boffset ≤ (t.lines.getD (c.lineNum - 1) []).length) :
    (revertCore (mkInsertAction c data)
        (applyCore (mkInsertAction c data) t) = t ∧
      applyCore (mkInsertAction c data)
        (revertCore (mkInsertAction c data)
          (applyCore (mkInsertAction c data) t)) =
        applyCore (mkInsertAction c data) t) ∧
    (n ≤ flatLen ((t.lines.getD (c.lineNum - 1) []).drop c.boffset)
        (t.lines.drop c.lineNum) →
      ∀ a, mkDeleteAction t.lines c n = some a →
        revertCore a (applyCore a t) = t ∧
        applyCore a (revertCore a (applyCore a t)) = applyCore a t) := by
  have hli : c.lineNum - 1 < t.lines.length := by omega
  have hA : (t.lines.take (c.lineNum - 1)).length = c.lineNum - 1 := by
    simp only [List.length_take]
    omega
  have hzip : t.lines = t.lines.take (c.lineNum - 1) ++
      t.lines.getD (c.lineNum - 1) [] :: t.lines.drop (c.lineNum - 1 + 1) :=
    zipper_split t.lines _ hli
  have hoff : c.boffset =
      ((t.lines.getD (c.lineNum - 1) []).take c.boffset).length := by
    simp only [List.length_take]
    omega
  have hlin : c.lineNum - 1 + 1 = c.lineNum := by omega
  rw [hlin] at hzip
  constructor
  · have hins := insertCore_closed c data t h1 h2 h3
    have hdel := deleteCore_closed c data (t.lines.take (c.lineNum - 1))
      ((t.lines.getD (c.lineNum - 1) []).take c.boffset)
      ((t.lines.getD (c.lineNum - 1) []).drop c.boffset)
      (t.lines.drop (c.lineNum - 1 + 1))
      (t.numBytes + data.length) (t.numLines + data.count 10) hA hoff
    have hfirst : revertCore (mkInsertAction c data)
        (applyCore (mkInsertAction c data) t) = t := by
      show deleteCore c data (insertCore c data t) = t
      rw [hins, hdel]
      have hgoal : (⟨t.lines.take (c.lineNum - 1) ++
          ((t.lines.getD (c.lineNum - 1) []).take c.boffset ++
            (t.lines.getD (c.lineNum - 1) []).drop c.boffset) ::
            t.lines.drop (c.lineNum - 1 + 1),
          t.numBytes + ↑data.length - ↑data.length,
          t.numLines + ↑(data.count 10) - ↑(data.count 10)⟩ : TextState) =
          ⟨t.lines, t.numBytes, t.numLines⟩ := by
        simp only [TextState.mk.injEq]
        refine ⟨?_, by omega, by omega⟩
        rw [List.take_append_drop, hlin]
        exact hzip.symm
      exact hgoal
    exact ⟨hfirst, by rw [hfirst]⟩
  · intro hn a ha
    have hTnl : ∀ x ∈ (t.lines.getD (c.lineNum - 1) []).drop c.boffset,
        x ≠ 10 :=
      fun x hx => hnl _ (getD_mem _ _ hli) x (List.drop_subset _ _ hx)
    have hpostnl : ∀ l ∈ t.lines.drop c.lineNum, ∀ x ∈ l, x ≠ 10 :=
      fun l hl => hnl l (List.drop_subset _ _ hl)
    have hext : extractBytes t.lines c n =
        some (takeFlat n ((t.lines.getD (c.lineNum - 1) []).drop c.boffset)
          (t.lines.drop c.lineNum)) := by
      rw [extractBytes, get?_eq_some_getD _ _ hli]
      exact extractLoop_eq_takeFlat _ _ _ _ h3 (by omega)
    simp only [mkDeleteAction, hext] at ha
    obtain rfl := Option.some.inj ha
    have hkey := c1_delete_dir c n (t.lines.take (c.lineNum - 1))
      ((t.lines.getD (c.lineNum - 1) []).take c.boffset)
      ((t.lines.getD (c.lineNum - 1) []).drop c.boffset)
      (t.lines.drop c.lineNum) t.numBytes t.numLines h1 hA hoff hTnl
      hpostnl hn
    rw [List.take_append_drop] at hkey
    rw [← hzip] at hkey
    exact ⟨hkey, by rw [hkey]⟩

/-- Witness for C1 at the one-line buffer "ab", cursor (1,1), insert
payload "x" and a one-byte delete. -/
theorem vigo_c1_witness :
    revertCore (mkInsertAction ⟨1, 1⟩ [120])
        (applyCore (mkInsertAction ⟨1, 1⟩ [120]) ⟨[[97, 98]], 2, 1⟩) =
      ⟨[[97, 98]], 2, 1⟩ ∧
    revertCore ⟨.delete, [98], ⟨1, 1⟩, 0⟩
        (applyCore ⟨.delete, [98], ⟨1, 1⟩, 0⟩ ⟨[[97, 98]], 2, 1⟩) =
      ⟨[[97, 98]], 2, 1⟩ := by
  have h := vigo_c1_apply_revert_inverses ⟨[[97, 98]], 2, 1⟩ ⟨1, 1⟩
    [120] 1 (by decide) (by decide) (by decide) (by decide)
  exact ⟨h.1.1, (h.2 (by decide) ⟨.delete, [98], ⟨1, 1⟩, 0⟩ rfl).1⟩

/-- C2: `undo()` at the sentinel (no previous group) emits `HistoryStart`
and leaves the whole buffer — contents and history position — unchanged;
`redo()` with no following group, or a following group without actions,
emits `HistoryEnd` and likewise changes nothing. -/
theorem vigo_c2_undo_redo_boundary (b : BufferM) :
    (b.histPast = [] → bufUndo b = (b, [EventType.historyStart])) ∧
    (b.histFut = [] → bufRedo b = (b, [EventType.historyEnd])) ∧
    (∀ g rest, b.histFut = g :: rest → g.actions = [] →
      bufRedo b = (b, [EventType.historyEnd])) := by
  refine ⟨fun h => ?_, fun h => ?_, fun g rest h hg => ?_⟩
  · simp [bufUndo, h]
  · simp [bufRedo, h]
  · simp [bufRedo, h, hg]

/-- Witness for C2 at the freshly initialized buffer: its history is the
sentinel with one empty open group, so both boundary cases fire. -/
theorem vigo_c2_witness :
    bufUndo mkEmptyBuffer = (mkEmptyBuffer, [EventType.historyStart]) ∧
    bufRedo mkEmptyBuffer = (mkEmptyBuffer, [EventType.historyEnd]) :=
  ⟨(vigo_c2_undo_redo_boundary mkEmptyBuffer).1 rfl,
   (vigo_c2_undo_redo_boundary mkEmptyBuffer).2.2 ⟨[]⟩ [] rfl rfl⟩

/-- C3 counterexample: appending the insert of byte `y` at (line 1,
offset 5) onto a group whose last action inserted byte `x` at the same
cursor merges them, but the merged payload is `new ++ existing`
(`yx`), not `existing ++ new` (`xy`) as the claim states. -/
theorem vigo_c3_counterexample :
    tryMerge ⟨.insert, [120], ⟨1, 5⟩, 0⟩ ⟨.insert, [121], ⟨1, 5⟩, 0⟩ =
      some ⟨.insert, [121, 120], ⟨1, 5⟩, 0⟩ ∧
    (∀ m, tryMerge ⟨.insert, [120], ⟨1, 5⟩, 0⟩ ⟨.insert, [121], ⟨1, 5⟩, 0⟩ =
      some m → m.data ≠ [120, 121]) ∧
    groupAppend ⟨[⟨.insert, [120], ⟨1, 5⟩, 0⟩]⟩ ⟨.insert, [121], ⟨1, 5⟩, 0⟩ =
      ⟨[⟨.insert, [121, 120], ⟨1, 5⟩, 0⟩]⟩ := by
  refine ⟨by decide, ?_, by decide⟩
  intro m hm
  have : m = ⟨.insert, [121, 120], ⟨1, 5⟩, 0⟩ := by
    have h := hm.symm.trans (by decide :
      tryMerge ⟨.insert, [120], ⟨1, 5⟩, 0⟩ ⟨.insert, [121], ⟨1, 5⟩, 0⟩ =
        some ⟨.insert, [121, 120], ⟨1, 5⟩, 0⟩)
    exact Option.some.inj h
  subst this
  decide

/-- C3 amended: an action appended after a previous one merges only when
the kinds and line numbers agree.  At identical byte offsets the merged
payload is `new ++ existing` for inserts and `existing ++ new` for
deletes (the opposite of the claim's orders); at adjacent offsets the
payloads concatenate in positional order with the lower cursor kept; in
all other cases no merge happens.  Consequently consecutive insertions at
adjacent offsets on the same line (single runes in particular) occupy a
single action after `Append`. -/
theorem vigo_c3_merge_amended (a b : ActionM) :
    (a.what ≠ b.what ∨ a.cursor.lineNum ≠ b.cursor.lineNum →
      tryMerge a b = none) ∧
    (a.what = .insert → b.what = .insert →
      a.cursor.lineNum = b.cursor.lineNum →
      a.cursor.boffset = b.cursor.boffset →
      tryMerge a b =
        some ⟨.insert, b.data ++ a.data, b.cursor, b.numLines + a.numLines⟩) ∧
    (a.what = .delete → b.what = .delete →
      a.cursor.lineNum = b.cursor.lineNum →
      a.cursor.boffset = b.cursor.boffset →
      tryMerge a b =
        some ⟨.delete, a.data ++ b.data, a.cursor, a.numLines + b.numLines⟩) ∧
    (a.what = b.what → a.cursor.lineNum = b.cursor.lineNum →
      a.cursor.boffset ≠ b.cursor.boffset →
      a.cursor.boffset + a.data.length = b.cursor.boffset →
      tryMerge a b =
        some ⟨a.what, a.data ++ b.data, a.cursor, a.numLines + b.numLines⟩) ∧
    (a.what = b.what → a.cursor.lineNum = b.cursor.lineNum →
      a.cursor.boffset ≠ b.cursor.boffset →
      b.cursor.boffset + b.data.length = a.cursor.boffset →
      tryMerge a b =
        some ⟨a.what, b.data ++ a.data, b.cursor, b.numLines + a.numLines⟩) ∧
    (a.what = b.what → a.cursor.lineNum = b.cursor.lineNum →
      a.cursor.boffset ≠ b.cursor.boffset →
      a.cursor.boffset + a.data.length ≠ b.cursor.boffset →
      b.cursor.boffset + b.data.length ≠ a.cursor.boffset →
      tryMerge a b = none) ∧
    (∀ pre : List ActionM, a.what = b.what →
      a.cursor.lineNum = b.cursor.lineNum →
      a.cursor.boffset ≠ b.cursor.boffset →
      a.cursor.boffset + a.data.length = b.cursor.boffset →
      groupAppend ⟨pre ++ [a]⟩ b =
        ⟨pre ++ [⟨a.what, a.data ++ b.data, a.cursor, a.numLines + b.numLines⟩]⟩) := by
  have hmain : ∀ (h1 : a.what = b.what) (h2 : a.cursor.lineNum = b.cursor.lineNum)
      (h3 : a.cursor.boffset ≠ b.cursor.boffset)
      (h4 : a.cursor.boffset + a.data.length = b.cursor.boffset),
      tryMerge a b =
        some ⟨a.what, a.data ++ b.data, a.cursor, a.numLines + b.numLines⟩ := by
    intro h1 h2 h3 h4
    have hlt : ¬ b.cursor.boffset < a.cursor.boffset := by omega
    simp [tryMerge, h1, h2, h3, h4, hlt]
  refine ⟨?_, ?_, ?_, hmain, ?_, ?_, ?_⟩
  · intro h
    by_cases hw : a.what = b.what
    · have hl : a.cursor.lineNum ≠ b.cursor.lineNum := by
        rcases h with h | h
        · exact absurd hw h
        · exact h
      simp [tryMerge, hw, hl]
    · simp [tryMerge, hw]
  · intro ha hb h2 h3
    simp [tryMerge, ha, hb, h2, h3]
  · intro ha hb h2 h3
    simp [tryMerge, ha, hb, h2, h3]
  · intro h1 h2 h3 h4
    have hlt : b.cursor.boffset < a.cursor.boffset := by omega
    simp [tryMerge, h1, h2, h3, h4, hlt]
  · intro h1 h2 h3 h4 h5
    by_cases hlt : b.cursor.boffset < a.cursor.boffset
    · simp [tryMerge, h1, h2, h3, h4, h5, hlt]
    · simp [tryMerge, h1, h2, h3, h4, h5, hlt]
  · intro pre h1 h2 h3 h4
    have hconc := hmain h1 h2 h3 h4
    simp [groupAppend, List.getLast?_concat, List.dropLast_concat, hconc]

/-- Witness for C3's amended statement: two inserts of one byte each at
adjacent offsets of the same line collapse to one action, and two inserts
at the same cursor merge with the new payload first. -/
theorem vigo_c3_witness :
    groupAppend ⟨[] ++ [⟨.insert, [120], ⟨1, 5⟩, 0⟩]⟩ ⟨.insert, [121], ⟨1, 6⟩, 0⟩ =
      ⟨[] ++ [⟨.insert, [120, 121], ⟨1, 5⟩, 0⟩]⟩ ∧
    tryMerge ⟨.insert, [120], ⟨1, 5⟩, 0⟩ ⟨.insert, [121], ⟨1, 5⟩, 0⟩ =
      some ⟨.insert, [121] ++ [120], ⟨1, 5⟩, 0⟩ :=
  ⟨(vigo_c3_merge_amended ⟨.insert, [120], ⟨1, 5⟩, 0⟩ ⟨.insert, [121], ⟨1, 6⟩, 0⟩).2.2.2.2.2.2
      [] rfl rfl (by decide) (by decide),
   (vigo_c3_merge_amended ⟨.insert, [120], ⟨1, 5⟩, 0⟩ ⟨.insert, [121], ⟨1, 5⟩, 0⟩).2.1
      rfl rfl rfl rfl⟩

/-- C4 counterexample: inserting the five bytes `ab`, newline, `cd` into a
fresh empty buffer leaves `numBytes` at 5 (the newline is counted), not 4
as the claim states. -/
theorem vigo_c4_counterexample :
    (bufInsert ⟨1, 0⟩ [97, 98, 10, 99, 100] mkEmptyBuffer).text.numBytes ≠ 4 ∧
    (bufInsert ⟨1, 0⟩ [97, 98, 10, 99, 100] mkEmptyBuffer).text.numBytes = 5 := by
  decide

/-- C4 amended: inserting `ab`, newline, `cd` into a fresh empty buffer at
(line 1, offset 0) yields exactly the two lines `ab` and `cd`, line count
2, byte count 5 (four line bytes plus the newline), and the recorded
insert action's vector of created lines has length 1. -/
theorem vigo_c4_insert_across_newline_amended :
    (bufInsert ⟨1, 0⟩ [97, 98, 10, 99, 100] mkEmptyBuffer).text.lines =
      [[97, 98], [99, 100]] ∧
    (bufInsert ⟨1, 0⟩ [97, 98, 10, 99, 100] mkEmptyBuffer).text.numLines = 2 ∧
    (bufInsert ⟨1, 0⟩ [97, 98, 10, 99, 100] mkEmptyBuffer).text.numBytes = 5 ∧
    (mkInsertAction ⟨1, 0⟩ [97, 98, 10, 99, 100]).numLines = 1 := by
  decide

/-- C6: after any valid sequence of insert and delete actions, the
buffer's stored `NumLines` counter equals the number of `Line` nodes in
the chain.  (In the model the chain is a list, so reachability from
`FirstLine`, termination at `LastLine` and the `Prev` back-links are
intrinsic to the representation; the content of the claim is that the
counter maintained by `InsertLine` and `DeleteLine` tracks the real
length.) -/
theorem vigo_c6_line_count_invariant :
    ∀ (as : List ActionM) (t : TextState), actsOk t as →
      t.numLines = (t.lines.length : Int) →
      (applyAll as t).numLines = ((applyAll as t).lines.length : Int) := by
  intro as
  induction as with
  | nil =>
    intro t _ h
    simpa [applyAll] using h
  | cons a as ih =>
    intro t hok h
    obtain ⟨h1, h2⟩ := hok
    have hc := applyCore_counts a t h1
    have h3 : (applyCore a t).numLines = ((applyCore a t).lines.length : Int) := by
      omega
    simpa [applyAll] using ih (applyCore a t) h2 h3

/-- Witness for C6: an insert across a newline followed by a delete that
joins the lines back, starting from the empty buffer's textual state. -/
theorem vigo_c6_witness :
    (applyAll [mkInsertAction ⟨1, 0⟩ [97, 10, 98],
      ⟨.delete, [10], ⟨1, 1⟩, 1⟩] ⟨[[]], 0, 1⟩).numLines =
    ((applyAll [mkInsertAction ⟨1, 0⟩ [97, 10, 98],
      ⟨.delete, [10], ⟨1, 1⟩, 1⟩] ⟨[[]], 0, 1⟩).lines.length : Int) :=
  vigo_c6_line_count_invariant
    [mkInsertAction ⟨1, 0⟩ [97, 10, 98], ⟨.delete, [10], ⟨1, 1⟩, 1⟩]
    ⟨[[]], 0, 1⟩
    ⟨⟨by decide, by decide, by decide, by decide⟩,
     ⟨by decide, by decide, by decide, by decide⟩, trivial⟩
    (by decide)

/-- C7 counterexample: in the buffer actually loaded from the claim's text
(`func bar(i int) {` / ` return 0` / `}` / empty), line 2 is ` return 0`,
and the first next-word motion from (line 2, offset 2) lands at offset 8,
not offset 5. -/
theorem vigo_c7_counterexample :
    fromReaderLines c7ClaimedInput =
      [[102, 117, 110, 99, 32, 98, 97, 114, 40, 105, 32, 105, 110, 116, 41,
        32, 123], [32, 114, 101, 116, 117, 114, 110, 32, 48], [125], []] ∧
    nextWordN (fromReaderLines c7ClaimedInput) 100 1 (2, 2) = some (2, 8) ∧
    nextWordN (fromReaderLines c7ClaimedInput) 100 1 (2, 2) ≠ some (2, 5) := by
  refine ⟨by decide, by decide, by decide⟩

/-- C7 amended: in the buffer the cursor test uses — `// comment` /
`func bar(i int) {` / ` return 0` / `}` — successive next-word motions
from (line 2, offset 2) land at offsets 5, 8, 9, 11, 14, 16 on line 2,
then (line 3, offset 1), (line 3, offset 8), (line 4, offset 0). -/
theorem vigo_c7_word_motion_amended :
    nextWordN (fromReaderLines c7TestInput) 100 1 (2, 2) = some (2, 5) ∧
    nextWordN (fromReaderLines c7TestInput) 100 2 (2, 2) = some (2, 8) ∧
    nextWordN (fromReaderLines c7TestInput) 100 3 (2, 2) = some (2, 9) ∧
    nextWordN (fromReaderLines c7TestInput) 100 4 (2, 2) = some (2, 11) ∧
    nextWordN (fromReaderLines c7TestInput) 100 5 (2, 2) = some (2, 14) ∧
    nextWordN (fromReaderLines c7TestInput) 100 6 (2, 2) = some (2, 16) ∧
    nextWordN (fromReaderLines c7TestInput) 100 7 (2, 2) = some (3, 1) ∧
    nextWordN (fromReaderLines c7TestInput) 100 8 (2, 2) = some (3, 8) ∧
    nextWordN (fromReaderLines c7TestInput) 100 9 (2, 2) = some (4, 0) := by
  refine ⟨by decide, by decide, by decide, by decide, by decide, by decide,
    by decide, by decide, by decide⟩

/-- C8 counterexample: for a view 10 cells wide on the line
`0123456789ABCDEF`, the clamped horizontal threshold is 4, and moving the
cursor to byte offset 15 sets `line_voffset` to 10 and puts the cursor at
visual column 5 — not 8 and 7 as the claim states. -/
theorem vigo_c8_counterexample :
    moveCursorSameLine 10 c8Line 15 0 = (10, 5) ∧
    (moveCursorSameLine 10 c8Line 15 0).1 ≠ 8 ∧
    (moveCursorSameLine 10 c8Line 15 0).2 ≠ 7 := by
  decide

/-- C8 amended: with view width 10 (so the clamped `hthreshold` is 4) and
cursor line `0123456789ABCDEF`, moving the cursor to byte offset 15 sets
`line_voffset` to 10 and places the cursor at visual column 5; the first
cell of the drawn cursor line is the `←` marker, and its last cell is a
plain space — the `→` marker appears only when content extends past the
right edge, as it does when the same line is drawn unscrolled. -/
theorem vigo_c8_horizontal_scroll_amended :
    moveCursorSameLine 10 c8Line 15 0 = (10, 5) ∧
    (drawLineRow 10 10 c8Line).headD 0 = 8592 ∧
    (drawLineRow 10 10 c8Line).getLastD 0 = 32 ∧
    (drawLineRow 10 10 c8Line).getLastD 0 ≠ 8594 ∧
    (drawLineRow 10 0 c8Line).getLastD 0 = 8594 := by
  refine ⟨by decide, by decide, by decide, by decide, by decide⟩

/-- C9: the cut-buffer operations abort (fatally, modelled as `none`)
exactly on names outside `1..9`, `a..z`, `.`; on every valid name all
three operations succeed, and `set` followed by `get` returns the stored
bytes. -/
theorem vigo_c9_cutbuffer_names :
    (∀ b : Nat, validCutBufferPanics b = false ↔
      (b = 46 ∨ (49 ≤ b ∧ b ≤ 57) ∨ (97 ≤ b ∧ b ≤ 122))) ∧
    (∀ b s m, validCutBufferPanics b = false →
      (∃ m2, cbSet b s m = some m2 ∧ cbGet b m2 = some s) ∧
      (cbGet b m).isSome ∧ (cbAppend b s m).isSome) ∧
    (∀ b s m, validCutBufferPanics b = true →
      cbSet b s m = none ∧ cbGet b m = none ∧ cbAppend b s m = none) := by
  refine ⟨fun b => ?_, fun b s m h => ?_, fun b s m h => ?_⟩
  · simp only [validCutBufferPanics, Bool.or_eq_false_iff, Bool.and_eq_false_iff,
      decide_eq_false_iff_not, not_lt, not_not, ne_eq]
    constructor
    · intro h
      omega
    · intro h
      omega
  · refine ⟨⟨fun x => if x = b then s else m x, ?_, ?_⟩, ?_, ?_⟩
    · simp [cbSet, h]
    · simp [cbGet, h]
    · simp [cbGet, h]
    · simp [cbAppend, h]
  · exact ⟨by simp [cbSet, h], by simp [cbGet, h], by simp [cbAppend, h]⟩

/-- Witness for C9 at the valid name `a` (byte 97). -/
theorem vigo_c9_witness :
    validCutBufferPanics 97 = false ∧
    (∃ m2, cbSet 97 [1, 2] (fun _ => []) = some m2 ∧ cbGet 97 m2 = some [1, 2]) :=
  ⟨by decide,
   ((vigo_c9_cutbuffer_names.2.1 97 [1, 2] (fun _ => []) (by decide))).1⟩

/-- C10: for cursors in the same buffer (consistent line numbers and
in-range byte offsets), the signed byte distance is antisymmetric and
vanishes on equal cursors; each line boundary crossed contributes exactly
one byte to the walk. -/
theorem vigo_c10_distance_antisym (lines : List (List Nat)) (a b : CursorM)
    (ha : 1 ≤ a.lineNum ∧ a.lineNum ≤ lines.length ∧
      a.boffset ≤ (lines.getD (a.lineNum - 1) []).length)
    (hb : 1 ≤ b.lineNum ∧ b.lineNum ≤ lines.length ∧
      b.boffset ≤ (lines.getD (b.lineNum - 1) []).length) :
    distance lines a b = - distance lines b a ∧ distance lines a a = 0 := by
  constructor
  · by_cases h1 : b.lineNum < a.lineNum
    · have h2 : ¬ a.lineNum < b.lineNum := by omega
      have h3 : ¬ (b.lineNum = a.lineNum ∧ a.boffset < b.boffset) := by omega
      simp [distance, h1, h2, h3]
    · by_cases h2 : a.lineNum < b.lineNum
      · have h4 : ¬ (a.lineNum = b.lineNum ∧ b.boffset < a.boffset) := by omega
        simp [distance, h1, h2, h4]
      · have heq : a.lineNum = b.lineNum := by omega
        by_cases h5 : b.boffset < a.boffset
        · have h6 : ¬ (b.lineNum = a.lineNum ∧ a.boffset < b.boffset) := by omega
          have h7 : ¬ a.boffset < b.boffset := by omega
          simp [distance, h1, h2, heq, h5, h6, h7]
        · by_cases h7 : a.boffset < b.boffset
          · have h8 : ¬ (a.lineNum = b.lineNum ∧ b.boffset < a.boffset) := by omega
            simp [distance, h1, h2, heq, h5, h7, h8]
          · have hoff : a.boffset = b.boffset := by omega
            have h8 : ¬ (a.lineNum = b.lineNum ∧ b.boffset < a.boffset) := by omega
            have h9 : ¬ (b.lineNum = a.lineNum ∧ a.boffset < b.boffset) := by omega
            simp [distance, h1, h2, h8, h9, heq, hoff]
            rw [distWalk]
            simp
  · simp [distance]
    rw [distWalk]
    simp

/-- Witness for C10: two concrete in-range cursors in a two-line
buffer. -/
theorem vigo_c10_witness :
    distance [[97, 98], [99]] ⟨1, 1⟩ ⟨2, 1⟩ =
      - distance [[97, 98], [99]] ⟨2, 1⟩ ⟨1, 1⟩ ∧
    distance [[97, 98], [99]] ⟨1, 1⟩ ⟨1, 1⟩ = 0 :=
  vigo_c10_distance_antisym [[97, 98], [99]] ⟨1, 1⟩ ⟨2, 1⟩
    (by refine ⟨by decide, by decide, by decide⟩)
    (by refine ⟨by decide, by decide, by decide⟩)

end Vigo
